import Mathlib

/-!
Verification of the mygrep regex pipeline: a shallow embedding of the
symbol model (`src/regex.rs`), the postfixer (`src/postfixer.rs`), the
index-based graph (`src/graph.rs`), the Thompson NFA builder
(`src/nfa.rs`), the subset-construction DFA builder (`src/dfa.rs`) and
the scanner (`src/lib.rs`), together with theorems about each stage.

Rust `panic!`/`unwrap` failures are modelled by `Option`/`none`;
recoverable `Result` errors by `Except String`.
-/

namespace MyGrep

/-! ## Symbol model (src/regex.rs) -/

inductive OperatorType : Type
  | None
  | Unary
  | Binary
deriving DecidableEq, Repr

/-- Alias for the character type, usable inside the `RegexSymbol` namespace
where the `Char` constructor shadows the `Char` type. -/
abbrev Chr := Char

inductive RegexSymbol : Type
  | Optional
  | Plus
  | Star
  | Concat
  | Alternation
  | Open
  | Close
  | Char (c : Chr)
deriving DecidableEq, Repr

def RegexSymbol.from_char (c : Chr) : RegexSymbol :=
  if c = '?' then RegexSymbol.Optional
  else if c = '+' then RegexSymbol.Plus
  else if c = '*' then RegexSymbol.Star
  else if c = '|' then RegexSymbol.Alternation
  else if c = '(' then RegexSymbol.Open
  else if c = ')' then RegexSymbol.Close
  else RegexSymbol.Char c

def RegexSymbol.get_escaped (c : Chr) : Except String RegexSymbol :=
  if c = '?' then Except.ok (RegexSymbol.Char '?')
  else if c = '+' then Except.ok (RegexSymbol.Char '+')
  else if c = '*' then Except.ok (RegexSymbol.Char '*')
  else if c = '|' then Except.ok (RegexSymbol.Char '|')
  else if c = '(' then Except.ok (RegexSymbol.Char '(')
  else if c = ')' then Except.ok (RegexSymbol.Char ')')
  else if c = 't' then Except.ok (RegexSymbol.Char '\t')
  else if c = 'b' then Except.ok (RegexSymbol.Char (Char.ofNat 0x0008))
  else if c = 'n' then Except.ok (RegexSymbol.Char '\n')
  else if c = 'r' then Except.ok (RegexSymbol.Char '\r')
  else if c = 'f' then Except.ok (RegexSymbol.Char (Char.ofNat 0x000A))
  else if c = '\\' then Except.ok (RegexSymbol.Char '\\')
  else Except.error ("Error - Invalid escaped character: \\" ++ String.singleton c)

def RegexSymbol.get_precedence : RegexSymbol → Nat
  | RegexSymbol.Optional => 3
  | RegexSymbol.Plus => 3
  | RegexSymbol.Star => 3
  | RegexSymbol.Concat => 2
  | RegexSymbol.Alternation => 1
  | _ => 0

def RegexSymbol.get_type : RegexSymbol → OperatorType
  | RegexSymbol.Optional => OperatorType.Unary
  | RegexSymbol.Plus => OperatorType.Unary
  | RegexSymbol.Star => OperatorType.Unary
  | RegexSymbol.Concat => OperatorType.Binary
  | RegexSymbol.Alternation => OperatorType.Binary
  | _ => OperatorType.None

def RegexSymbol.is_unary_operator (c : Chr) : Bool :=
  c = '?' || c = '+' || c = '*'

def RegexSymbol.is_binary_operator (c : Chr) : Bool :=
  c = '|'

def RegexSymbol.is_operator (c : Chr) : Bool :=
  RegexSymbol.is_unary_operator c || RegexSymbol.is_binary_operator c

/-- The `Display` rendering of a symbol (src/regex.rs `fmt`): `Concat` prints as `.` -/
def RegexSymbol.display : RegexSymbol → String
  | RegexSymbol.Optional => "?"
  | RegexSymbol.Plus => "+"
  | RegexSymbol.Star => "*"
  | RegexSymbol.Concat => "."
  | RegexSymbol.Alternation => "|"
  | RegexSymbol.Open => "("
  | RegexSymbol.Close => ")"
  | RegexSymbol.Char c => String.singleton c

/-! ## Postfixer (src/postfixer.rs) -/

/-- Stage A (src/postfixer.rs `check_start_and_end_chars`): reject a pattern
beginning with any operator or ending with a binary operator. -/
def check_start_and_end_chars (regex : String) : Except String String :=
  if (regex.data.head?.map RegexSymbol.is_operator).getD false then
    Except.error "Error - Illegal operator usage at start of string"
  else if (regex.data.getLast?.map RegexSymbol.is_binary_operator).getD false then
    Except.error "Error - Illegal operator usage at end of string"
  else Except.ok regex

/-- The pairwise scan of `check_for_illegal_operator_sequences`, carrying the
0-based position `i` of the current character. -/
def illegalSeqScan : Nat → List Char → Except String Unit
  | _, [] => Except.ok ()
  | _, [_] => Except.ok ()
  | i, current :: next :: rest =>
    if (RegexSymbol.is_binary_operator current && RegexSymbol.is_operator next)
        || (RegexSymbol.is_unary_operator current && RegexSymbol.is_unary_operator next) then
      Except.error ("Error - Illegal operator sequence: " ++ String.singleton current
        ++ String.singleton next ++ ", starting at position: " ++ toString i)
    else illegalSeqScan (i + 1) (next :: rest)

/-- Stage B (src/postfixer.rs `check_for_illegal_operator_sequences`). -/
def check_for_illegal_operator_sequences (regex : String) : Except String String :=
  (illegalSeqScan 0 regex.data).map (fun _ => regex)

/-- Stage C loop (src/postfixer.rs `format`): tokenisation with escape handling
and implicit-`Concat` insertion.  The `Bool` argument is the escape flag. -/
def formatGo : Bool → List Char → Except String (List RegexSymbol)
  | escape_flag, [] =>
    -- while-let ends when the iterator is exhausted
    let _ := escape_flag
    Except.ok []
  | escape_flag, current :: rest =>
    if current = '\\' && !escape_flag then
      match rest with
      | [] => Except.error "Error - Pattern may not end with a trailing backslash"
      | _ :: _ => formatGo true rest
    else
      (if escape_flag then RegexSymbol.get_escaped current
       else Except.ok (RegexSymbol.from_char current)).bind fun sym =>
        (formatGo false rest).map fun tail =>
          match rest with
          | [] => [sym]
          | next :: _ =>
            -- implicit concatenation insertion between `current` and `next`
            if (escape_flag || (!(current = '(') && !RegexSymbol.is_binary_operator current))
                && (!(next = ')') && !RegexSymbol.is_operator next) then
              sym :: RegexSymbol.Concat :: tail
            else
              sym :: tail

/-- Stage C (src/postfixer.rs `format`). -/
def format (regex : String) : Except String (List RegexSymbol) :=
  formatGo false regex.data

/-- On `Close`: pop operators off the stack (head = top) until an `Open` is
found; returns the popped operators in pop order and the stack with the
matching `Open` discarded, or `none` if the stack runs out (unbalanced). -/
def popUntilOpen : List RegexSymbol → Option (List RegexSymbol × List RegexSymbol)
  | [] => none
  | top :: rest =>
    if top = RegexSymbol.Open then some ([], rest)
    else (popUntilOpen rest).map fun p => (top :: p.1, p.2)

/-- On a binary operator: pop operators whose precedence is ≥ the current
symbol's while the top is not `Open`; returns popped operators in pop order
and the remaining stack. -/
def popWhileGE (prec : Nat) : List RegexSymbol → List RegexSymbol × List RegexSymbol
  | [] => ([], [])
  | top :: rest =>
    if top ≠ RegexSymbol.Open && prec ≤ top.get_precedence then
      let p := popWhileGE prec rest
      (top :: p.1, p.2)
    else ([], top :: rest)

/-- Final drain of the operator stack; a leftover `Open` is unbalanced. -/
def drainStack (output_queue : List RegexSymbol) : List RegexSymbol → Except String (List RegexSymbol)
  | [] => Except.ok output_queue
  | top :: rest =>
    if top = RegexSymbol.Open then Except.error "Error - Unbalanced brackets"
    else drainStack (output_queue ++ [top]) rest

/-- Main loop of `convert`: input symbols, operator stack (head = top),
output queue (front first). -/
def convertGo : List RegexSymbol → List RegexSymbol → List RegexSymbol → Except String (List RegexSymbol)
  | [], operator_stack, output_queue => drainStack output_queue operator_stack
  | sym :: restIn, operator_stack, output_queue =>
    if sym = RegexSymbol.Open then
      convertGo restIn (RegexSymbol.Open :: operator_stack) output_queue
    else if sym = RegexSymbol.Close then
      match popUntilOpen operator_stack with
      | none => Except.error "Error - Unbalanced brackets"
      | some (popped, stack') => convertGo restIn stack' (output_queue ++ popped)
    else if sym.get_type ≠ OperatorType.None then
      if sym.get_type = OperatorType.Binary then
        let p := popWhileGE sym.get_precedence operator_stack
        convertGo restIn (sym :: p.2) (output_queue ++ p.1)
      else
        -- unary operators are pushed without popping
        convertGo restIn (sym :: operator_stack) output_queue
    else
      convertGo restIn operator_stack (output_queue ++ [sym])

/-- Stage D (src/postfixer.rs `convert`): shunting-yard conversion. -/
def convert (formatted : List RegexSymbol) : Except String (List RegexSymbol) :=
  convertGo formatted [] []

/-- src/postfixer.rs `transform`: the full postfixer pipeline. -/
def transform (regex : String) : Except String (List RegexSymbol) := do
  let regex ← check_start_and_end_chars regex
  let regex ← check_for_illegal_operator_sequences regex
  let formatted ← format regex
  convert formatted

/-- Render a symbol queue the way the fixtures do: concatenated `Display` forms. -/
def displayQueue (queue : List RegexSymbol) : String :=
  String.join (queue.map RegexSymbol.display)

/-! ## Graph (src/graph.rs)

Nodes and edges live in growing arrays addressed by dense indices; each node
holds the head of a singly-linked list of its outgoing edges. -/

structure GNode (T : Type) where
  first_outgoing_edge : Option Nat
  data : T
deriving DecidableEq, Repr

structure GEdge (U : Type) where
  target : Nat
  next_outgoing_edge : Option Nat
  data : U
deriving DecidableEq, Repr

structure Graph (T U : Type) where
  nodes : List (GNode T)
  edges : List (GEdge U)
deriving DecidableEq, Repr

def Graph.new (T U : Type) : Graph T U := ⟨[], []⟩

/-- src/graph.rs `add_node`: append a node with no outgoing edges, returning
its index together with the new graph. -/
def Graph.add_node (g : Graph T U) (data : T) : Nat × Graph T U :=
  (g.nodes.length, ⟨g.nodes ++ [⟨none, data⟩], g.edges⟩)

/-- src/graph.rs `add_edge`: append an edge whose `next` pointer is the old
head of `source`'s list, then point `source` at it.  The source indexes
`nodes[source]`, which panics when out of range; every verified caller keeps
`source` in range, and the out-of-range branch here leaves the graph as is. -/
def Graph.add_edge (g : Graph T U) (source target : Nat) (data : U) : Graph T U :=
  match g.nodes[source]? with
  | none => g
  | some nd =>
    { nodes := g.nodes.set source ⟨some g.edges.length, nd.data⟩,
      edges := g.edges ++ [⟨target, nd.first_outgoing_edge, data⟩] }

/-- Walk of the outgoing-edge linked list starting at edge index `e`.  The
source's `while let` follows `next_outgoing_edge`; on graphs built through
`add_node`/`add_edge` each `next` index is strictly smaller than the edge
holding it, so fuel `e` always suffices (`chainFrom fuel e` is independent
of `fuel` once `fuel ≥ e`, see the chain lemmas). -/
def Graph.chainFrom (g : Graph T U) : Nat → Nat → List Nat
  | 0, e => [e]
  | fuel + 1, e =>
    e :: (match (g.edges[e]?).bind GEdge.next_outgoing_edge with
          | none => []
          | some e' => g.chainFrom fuel e')

/-- src/graph.rs `outgoing_edges`, with `none` modelling a panic: the bounds
check computes `nodes.len() - 1`, which underflows when the graph has no
nodes (debug: overflow panic; release: the wrapped bound lets every index
through and `nodes[source]` then panics). -/
def Graph.outgoing_edges (g : Graph T U) (source : Nat) : Option (Except String (List Nat)) :=
  if g.nodes.length = 0 then none
  else if source > g.nodes.length - 1 then
    some (Except.error ("Error - Invalid source node index: " ++ toString source
      ++ ", must be between 0-" ++ toString (g.nodes.length - 1)))
  else
    match g.nodes[source]? with
    | none => none
    | some nd => some (Except.ok (nd.first_outgoing_edge.elim [] (fun e => g.chainFrom e e)))

/-- Total accessor for the outgoing-edge list, used to model call sites that
`unwrap()` the result of `outgoing_edges` with an in-range index. -/
def Graph.outgoingList (g : Graph T U) (source : Nat) : List Nat :=
  match g.nodes[source]? with
  | none => []
  | some nd => nd.first_outgoing_edge.elim [] (fun e => g.chainFrom e e)

/-- src/graph.rs `traverse`: an edge's target.  Call sites `unwrap()`; the
out-of-range branch returns the (invalid) index `nodes.length`. -/
def Graph.traverseD (g : Graph T U) (edge : Nat) : Nat :=
  match g.edges[edge]? with
  | some ed => ed.target
  | none => g.nodes.length

/-- Well-formedness of the linked-edge representation.  Every graph reachable
through `new`/`add_node`/`add_edge` (with in-range endpoints) satisfies it:
list heads are valid edge indices, `next` pointers strictly decrease, and
edge targets are valid node indices. -/
def Graph.WF (g : Graph T U) : Prop :=
  (∀ nd ∈ g.nodes, ∀ e ∈ nd.first_outgoing_edge, e < g.edges.length) ∧
  (∀ i < g.edges.length, ∀ ed ∈ g.edges[i]?,
     (∀ j ∈ ed.next_outgoing_edge, j < i) ∧ ed.target < g.nodes.length)

/-! ## Automata payloads (src/automata.rs) -/

structure AutomataState where
  accepting : Bool
deriving DecidableEq, Repr

/-- src/automata.rs `AutomataLabel`: its `(label, empty)` pair is constrained
by panics to `empty ↔ label = None`, i.e. exactly an `Option Char`
(`none` = ε-transition). -/
abbrev AutomataLabel := Option Char

structure AutomataComponent where
  start_state : Nat
  accept_state : Nat
deriving DecidableEq, Repr

abbrev NfaGraph := Graph AutomataState AutomataLabel

abbrev DfaGraph := Graph AutomataState Char

/-! ## NFA builder (src/nfa.rs) -/

def compile_character (nfa : NfaGraph) (c : Char) : AutomataComponent × NfaGraph :=
  let p1 := nfa.add_node ⟨false⟩
  let p2 := p1.2.add_node ⟨false⟩
  (⟨p1.1, p2.1⟩, p2.2.add_edge p1.1 p2.1 (some c))

def compile_optional (nfa : NfaGraph) (top : AutomataComponent) : AutomataComponent × NfaGraph :=
  let p1 := nfa.add_node ⟨false⟩
  let p2 := p1.2.add_node ⟨false⟩
  let g := p2.2.add_edge p1.1 top.start_state none
  let g := g.add_edge top.accept_state p2.1 none
  let g := g.add_edge p1.1 p2.1 none
  (⟨p1.1, p2.1⟩, g)

def compile_plus (nfa : NfaGraph) (top : AutomataComponent) : AutomataComponent × NfaGraph :=
  let p1 := nfa.add_node ⟨false⟩
  let p2 := p1.2.add_node ⟨false⟩
  let g := p2.2.add_edge p1.1 top.start_state none
  let g := g.add_edge top.accept_state p2.1 none
  let g := g.add_edge top.accept_state top.start_state none
  (⟨p1.1, p2.1⟩, g)

def compile_star (nfa : NfaGraph) (top : AutomataComponent) : AutomataComponent × NfaGraph :=
  let p1 := nfa.add_node ⟨false⟩
  let p2 := p1.2.add_node ⟨false⟩
  let g := p2.2.add_edge p1.1 top.start_state none
  let g := g.add_edge top.accept_state p2.1 none
  let g := g.add_edge top.accept_state top.start_state none
  let g := g.add_edge p1.1 p2.1 none
  (⟨p1.1, p2.1⟩, g)

def compile_concat (nfa : NfaGraph) (left right : AutomataComponent) : AutomataComponent × NfaGraph :=
  (⟨left.start_state, right.accept_state⟩,
   nfa.add_edge left.accept_state right.start_state none)

def compile_alternation (nfa : NfaGraph) (left right : AutomataComponent) : AutomataComponent × NfaGraph :=
  let p1 := nfa.add_node ⟨false⟩
  let p2 := p1.2.add_node ⟨false⟩
  let g := p2.2.add_edge p1.1 left.start_state none
  let g := g.add_edge p1.1 right.start_state none
  let g := g.add_edge left.accept_state p2.1 none
  let g := g.add_edge right.accept_state p2.1 none
  (⟨p1.1, p2.1⟩, g)

/-- src/nfa.rs `compile`: dispatch one postfix symbol.  `none` models the
panics: stack underflow on `pop().unwrap()` and the `Open`/`Close` panic. -/
def compile (nfa : NfaGraph) (component_stack : List AutomataComponent) (symbol : RegexSymbol) :
    Option (AutomataComponent × NfaGraph × List AutomataComponent) :=
  match symbol with
  | RegexSymbol.Optional =>
    match component_stack with
    | [] => none
    | top :: rest => let p := compile_optional nfa top; some (p.1, p.2, rest)
  | RegexSymbol.Plus =>
    match component_stack with
    | [] => none
    | top :: rest => let p := compile_plus nfa top; some (p.1, p.2, rest)
  | RegexSymbol.Star =>
    match component_stack with
    | [] => none
    | top :: rest => let p := compile_star nfa top; some (p.1, p.2, rest)
  | RegexSymbol.Concat =>
    match component_stack with
    | right :: left :: rest => let p := compile_concat nfa left right; some (p.1, p.2, rest)
    | _ => none
  | RegexSymbol.Alternation =>
    match component_stack with
    | right :: left :: rest => let p := compile_alternation nfa left right; some (p.1, p.2, rest)
    | _ => none
  | RegexSymbol.Char c => let p := compile_character nfa c; some (p.1, p.2, component_stack)
  | _ => none

/-- The `for symbol in postfix_regex` loop of `build_nfa`: each compiled
component is pushed back onto the stack. -/
def buildLoop : List RegexSymbol → NfaGraph → List AutomataComponent →
    Option (NfaGraph × List AutomataComponent)
  | [], g, st => some (g, st)
  | symbol :: rest, g, st =>
    match compile g st symbol with
    | none => none
    | some (component, g', st') => buildLoop rest g' (component :: st')

/-- Flip one node's accepting flag (src/automata.rs `mark_as_accepting`,
reached through `get_node_data(..).borrow_mut()`). -/
def markAccepting (g : NfaGraph) (i : Nat) : NfaGraph :=
  match g.nodes[i]? with
  | none => g
  | some nd => { g with nodes := g.nodes.set i { nd with data := ⟨true⟩ } }

/-- src/nfa.rs `build_nfa`: Thompson construction over the postfix queue.
`none` models the `pop().unwrap()` panic on an empty final stack (or any
mid-build underflow / parenthesis panic). -/
def build_nfa (postfix_regex : List RegexSymbol) : Option (AutomataComponent × NfaGraph) :=
  match buildLoop postfix_regex (Graph.new AutomataState AutomataLabel) [] with
  | none => none
  | some (g, st) =>
    match st with
    | [] => none
    | result :: _ => some (result, markAccepting g result.accept_state)

/-! ## DFA builder (src/dfa.rs)

`DFAState = BTreeSet<NodeIndex>` is modelled as a strictly sorted list of
node indices (`insertSorted` keeps the canonical form), so `BTreeSet`
equality is list equality. -/

/-- Ordered insertion without duplicates, the `BTreeSet::insert` of a
`usize` set represented as a strictly ascending list. -/
def insertSorted (a : Nat) : List Nat → List Nat
  | [] => [a]
  | b :: l =>
    if a < b then a :: b :: l
    else if a = b then b :: l
    else b :: insertSorted a l

/-- Total edge-payload accessor for an NFA graph; call sites fetch via
`get_edge_data(..).unwrap()` with indices produced by `outgoing_edges`,
which are in range on well-formed graphs.  The out-of-range branch reads
as a non-ε label so it can never add ε-reachability. -/
def edgeLabelN (g : NfaGraph) (e : Nat) : AutomataLabel :=
  match g.edges[e]? with
  | some ed => ed.data
  | none => some (Char.ofNat 0)

/-- The inner `for edge in outgoing_edges` of `empty_closure`: push the
targets of ε-edges that are in neither the result set nor the visit stack
(checked against the stack as it grows). -/
def closurePush (g : NfaGraph) (result : List Nat) (stack : List Nat) (edges : List Nat) : List Nat :=
  edges.foldl (fun st e =>
    match edgeLabelN g e with
    | none =>
      let next := g.traverseD e
      if next ∈ result ∨ next ∈ st then st else next :: st
    | some _ => st) stack

/-- The `while !visit_stack.is_empty()` loop of `empty_closure` (DFS).  The
stack is a list with its head on top (the end of the source's `Vec`).  The
fuel argument only bounds the iteration count; `empty_closure` passes enough
fuel that the `0` branch is never taken (each iteration inserts a new
element of a finite universe into the result, see the closure lemmas). -/
def closureLoop (g : NfaGraph) : Nat → List Nat → List Nat → List Nat
  | _, [], result => result
  | 0, _ :: _, result => result
  | fuel + 1, current :: rest, result =>
    let result' := insertSorted current result
    let stack' := closurePush g result' rest (g.outgoingList current)
    closureLoop g fuel stack' result'

/-- src/dfa.rs `empty_closure`: DFS over ε-edges from the set `s`.  The
initial stack holds `s` pushed in ascending order, so the maximum is on
top. -/
def empty_closure (g : NfaGraph) (s : List Nat) : List Nat :=
  closureLoop g (s.length + g.nodes.length + 1) s.reverse []

/-- src/dfa.rs `delta`: targets of `c`-labelled edges out of any state of
`s`, collected into a `BTreeSet`. -/
def delta (g : NfaGraph) (s : List Nat) (c : Char) : List Nat :=
  s.foldl (fun result state =>
    (g.outgoingList state).foldl (fun result e =>
      match edgeLabelN g e with
      | some sc => if sc = c then insertSorted (g.traverseD e) result else result
      | none => result) result) []

/-- Working state of `build_dfa`: the DFA graph under construction, the
duplicate-edge guard set, the `DFAState → NodeIndex` table, and the
worklist (front = `pop_front` end). -/
structure DfaBuild where
  dfa : DfaGraph
  final_dfa_edges : List (Nat × Nat × Char)
  final_dfa_states : List (List Nat × Nat)
  worklist : List (List Nat × Nat)
deriving Repr

/-- Assoc-list lookup modelling `HashMap::get` keyed on `BTreeSet`s. -/
def lookupState (m : List (List Nat × Nat)) (key : List Nat) : Option Nat :=
  match m with
  | [] => none
  | (k, v) :: rest => if k = key then some v else lookupState rest key

/-- Body of `for c in alphabet.iter()` in `build_dfa`, processing character
`c` for the popped entry `(current, index)`. -/
def dfaStep (nfa : NfaGraph) (accept : Nat) (current : List Nat) (index : Nat)
    (st : DfaBuild) (c : Char) : DfaBuild :=
  let next := empty_closure nfa (delta nfa current c)
  if next = [] then st
  else
    let found :=
      match lookupState st.final_dfa_states next with
      | some j => (j, st)
      | none =>
        let p := st.dfa.add_node ⟨decide (accept ∈ next)⟩
        (p.1,
         { st with
             dfa := p.2,
             final_dfa_states := (next, p.1) :: st.final_dfa_states,
             worklist := st.worklist ++ [(next, p.1)] })
    let next_index := found.1
    let st := found.2
    if (index, next_index, c) ∈ st.final_dfa_edges then st
    else
      { st with
          final_dfa_edges := (index, next_index, c) :: st.final_dfa_edges,
          dfa := st.dfa.add_edge index next_index c }

/-- The worklist loop of `build_dfa`.  The fuel only bounds iterations;
`build_dfa` passes `2 ^ n + 1`, enough that the worklist always drains
first (there are at most `2 ^ n` distinct discovered subsets). -/
def dfaLoop (nfa : NfaGraph) (accept : Nat) (alphabet : List Char) :
    Nat → DfaBuild → DfaBuild
  | _, st@⟨_, _, _, []⟩ => st
  | 0, st => st
  | fuel + 1, ⟨dfa, es, sm, (current, index) :: rest⟩ =>
    let st' := alphabet.foldl (dfaStep nfa accept current index) ⟨dfa, es, sm, rest⟩
    dfaLoop nfa accept alphabet fuel st'

/-- src/dfa.rs `build_dfa`: subset construction.  Returns the DFA start
index and the DFA graph. -/
def build_dfa (handle : AutomataComponent) (nfa : NfaGraph) (alphabet : List Char) :
    Nat × DfaGraph :=
  let start := handle.start_state
  let accept := handle.accept_state
  let start_of_dfa := empty_closure nfa [start]
  let is_start_accepting := decide (accept ∈ start_of_dfa)
  let p := (Graph.new AutomataState Char).add_node ⟨is_start_accepting⟩
  let st0 : DfaBuild := ⟨p.2, [], [(start_of_dfa, p.1)], [(start_of_dfa, p.1)]⟩
  let stF := dfaLoop nfa accept alphabet (2 ^ nfa.nodes.length + 1) st0
  (p.1, stF.dfa)

/-- Modelled from the spec: `get_alphabet` is called from `src/src/lib.rs`
and `src/src/main.rs` as `regex::get_alphabet`, but its definition is not
among the provided sources.  Per the spec (§3, invariants): "The alphabet is
exactly the set of `Char(c)` symbols appearing in the postfix stream". -/
def get_alphabet (postfix_regex : List RegexSymbol) : List Char :=
  postfix_regex.foldl
    (fun acc s =>
      match s with
      | RegexSymbol.Char c => if c ∈ acc then acc else acc ++ [c]
      | _ => acc) []

/-! ## Scanner and search (src/lib.rs) -/

/-- Models Rust's `char::to_lowercase().to_string()` comparison for the
characters this pipeline is exercised on: ASCII letters fold `A-Z` to
`a-z`; every other character maps to itself.  (The spec, §9, scopes case
handling to lowercase comparison on the BMP and leaves multi-character
foldings out of scope.) -/
def toLowerChar (c : Char) : Char :=
  if 'A' ≤ c ∧ c ≤ 'Z' then Char.ofNat (c.toNat + 32) else c

/-- Edge-label test of `run_automata`: case-folded comparison when
`ignore_case` is set, equality otherwise. -/
def labelMatches (ignore_case : Bool) (label c : Char) : Bool :=
  if ignore_case then toLowerChar label = toLowerChar c else label = c

/-- Total DFA edge payload accessor (call sites `unwrap()` in-range
indices; the out-of-range branch reads as an unmatchable NUL label). -/
def edgeLabelD (dfa : DfaGraph) (e : Nat) : Char :=
  match dfa.edges[e]? with
  | some ed => ed.data
  | none => Char.ofNat 0

/-- One character step of `run_automata`: scan all outgoing edges of the
current node, moving to the target of each matching edge (the last matching
edge wins — the loop has no break) and recording whether any matched. -/
def runStep (dfa : DfaGraph) (ignore_case : Bool) (current_node : Nat) (c : Char) : Nat × Bool :=
  (dfa.outgoingList current_node).foldl
    (fun acc e =>
      if labelMatches ignore_case (edgeLabelD dfa e) c then (dfa.traverseD e, true) else acc)
    (current_node, false)

/-- The character loop of `run_automata`, breaking at the first character
with no matching edge. -/
def runLoop (dfa : DfaGraph) (ignore_case : Bool) : List Char → Nat → Nat
  | [], current_node => current_node
  | c :: rest, current_node =>
    let p := runStep dfa ignore_case current_node c
    if p.2 then runLoop dfa ignore_case rest p.1 else current_node

/-- src/lib.rs `run_automata`: simulate the DFA on one suffix and report
whether the state reached (by exhaustion or dead end) is accepting. -/
def run_automata (start_of_dfa : Nat) (dfa : DfaGraph) (sub_line : List Char)
    (ignore_case : Bool) : Bool :=
  match dfa.nodes[runLoop dfa ignore_case sub_line start_of_dfa]? with
  | some nd => nd.data.accepting
  | none => false

/-- Rust `char::len_utf8`. -/
def lenUtf8 (c : Char) : Nat :=
  if c.toNat < 0x80 then 1
  else if c.toNat < 0x800 then 2
  else if c.toNat < 0x10000 then 3
  else 4

/-- Rust `str::len`: the UTF-8 byte length. -/
def byteLen (line : List Char) : Nat :=
  (line.map lenUtf8).sum

/-- `&line[i..]` for a byte offset `i`: the suffix when `i` is a character
boundary, `none` (panic) otherwise. -/
def byteSuffix (line : List Char) (i : Nat) : Option (List Char) :=
  if i = 0 then some line
  else
    match line with
    | [] => none
    | c :: rest => if i < lenUtf8 c then none else byteSuffix rest (i - lenUtf8 c)

/-- The `for i in 0..line.len()` loop of `check_line_matches`, counting down
the remaining byte offsets; `i` is the current offset.  `none` models the
slice panic at a non-boundary offset. -/
def checkLineLoop (start_of_dfa : Nat) (dfa : DfaGraph) (line : List Char) (ignore_case : Bool) :
    Nat → Nat → Option Bool
  | 0, _ => some false
  | remaining + 1, i =>
    match byteSuffix line i with
    | none => none
    | some sub_line =>
      if run_automata start_of_dfa dfa sub_line ignore_case then some true
      else checkLineLoop start_of_dfa dfa line ignore_case remaining (i + 1)

/-- src/lib.rs `check_line_matches`: try every byte offset of the line as a
match origin.  The offsets enumerate `0..line.len()` in *bytes*; an offset
inside a multi-byte character makes `&line[i..]` panic (`none`). -/
def check_line_matches (start_of_dfa : Nat) (dfa : DfaGraph) (line : List Char)
    (ignore_case : Bool) : Option Bool :=
  checkLineLoop start_of_dfa dfa line ignore_case (byteLen line) 0

/-- Split on `'\n'` like Rust `str::lines` (drop a final empty segment;
strip one trailing `'\r'` from each line). -/
def splitNewlines : List Char → List (List Char)
  | [] => [[]]
  | c :: rest =>
    if c = '\n' then [] :: splitNewlines rest
    else
      match splitNewlines rest with
      | [] => [[c]]
      | l :: ls => (c :: l) :: ls

def stripCR (l : List Char) : List Char :=
  match l.getLast? with
  | some c => if c = '\r' then l.dropLast else l
  | none => l

def linesOf (contents : List Char) : List (List Char) :=
  match (splitNewlines contents).getLast? with
  | some [] => ((splitNewlines contents).dropLast).map stripCR
  | _ => (splitNewlines contents).map stripCR

/-- The `for line in contents.lines()` loop of `search`; a scan panic
(`none` from `check_line_matches`) aborts the whole search. -/
def searchLines (start_of_dfa : Nat) (dfa : DfaGraph) (ignore_case : Bool) :
    List (List Char) → Option (List (List Char))
  | [] => some []
  | line :: rest =>
    match check_line_matches start_of_dfa dfa line ignore_case with
    | none => none
    | some b =>
      (searchLines start_of_dfa dfa ignore_case rest).map
        (fun results => if b then line :: results else results)

/-- src/lib.rs `search`: the full pipeline.  `none` models a panic: the
`unwrap()` on `transform`, a `build_nfa` stack underflow, or a scan panic. -/
def search (query contents : String) (ignore_case : Bool) : Option (List String) :=
  match transform query with
  | Except.error _ => none
  | Except.ok postfix_regex =>
    match build_nfa postfix_regex with
    | none => none
    | some (handle, nfa) =>
      let alphabet := get_alphabet postfix_regex
      let p := build_dfa handle nfa alphabet
      (searchLines p.1 p.2 ignore_case (linesOf contents.data)).map
        (fun ls => ls.map (fun l => String.mk l))

/-! ## Acceptance relations

Path-based acceptance for the two automata, phrased over the graph's own
outgoing-edge lists. -/

/-- `y` is the target of an ε-labelled edge out of `x`. -/
def EpsStep (g : NfaGraph) (x y : Nat) : Prop :=
  ∃ e ∈ g.outgoingList x, edgeLabelN g e = none ∧ g.traverseD e = y

/-- `y` is the target of a `c`-labelled edge out of `x`. -/
def CharStep (g : NfaGraph) (c : Char) (x y : Nat) : Prop :=
  ∃ e ∈ g.outgoingList x, edgeLabelN g e = some c ∧ g.traverseD e = y

/-- A path of character edges interleaved with any number of ε-edges,
consuming exactly the listed characters. -/
inductive NfaPath (g : NfaGraph) (x : Nat) : List Char → Nat → Prop
  | refl : NfaPath g x [] x
  | eps {s y z} : NfaPath g x s y → EpsStep g y z → NfaPath g x s z
  | char {s y c z} : NfaPath g x s y → CharStep g c y z → NfaPath g x (s ++ [c]) z

/-- NFA acceptance as the claim states it: some ε-interleaved path from the
start state to the accepting state consumes exactly the string. -/
def nfaAccepts (g : NfaGraph) (start accept : Nat) (s : List Char) : Prop :=
  NfaPath g start s accept

/-- `y` is the target of a `c`-labelled DFA edge out of `x`. -/
def DfaStep (g : DfaGraph) (c : Char) (x y : Nat) : Prop :=
  ∃ e ∈ g.outgoingList x, edgeLabelD g e = c ∧ g.traverseD e = y

/-- A DFA path consuming exactly the listed characters. -/
inductive DfaPath (g : DfaGraph) (x : Nat) : List Char → Nat → Prop
  | refl : DfaPath g x [] x
  | char {s y c z} : DfaPath g x s y → DfaStep g c y z → DfaPath g x (s ++ [c]) z

/-- The accepting flag of a DFA node. -/
def isAcceptingD (g : DfaGraph) (q : Nat) : Bool :=
  match g.nodes[q]? with
  | some nd => nd.data.accepting
  | none => false

/-- DFA acceptance: some edge path from the start spells the string and ends
in a state whose accepting flag is set. -/
def dfaAccepts (g : DfaGraph) (start : Nat) (s : List Char) : Prop :=
  ∃ q, DfaPath g start s q ∧ isAcceptingD g q = true

/-- ε-reachability from a set of states, the specification of the DFS in
`empty_closure`. -/
inductive EpsReach (g : NfaGraph) (s : List Nat) : Nat → Prop
  | base {x} : x ∈ s → EpsReach g s x
  | step {x y} : EpsReach g s x → EpsStep g x y → EpsReach g s y

/-- The subset-simulation iterate from an arbitrary ε-closed set. -/
def chainIter (g : NfaGraph) (K : List Nat) (s : List Char) : List Nat :=
  s.foldl (fun acc c => empty_closure g (delta g acc c)) K

/-- The subset-simulation iterate: the ε-closed set of NFA states reachable
on a given input prefix. -/
def subsetIter (g : NfaGraph) (start : Nat) (s : List Char) : List Nat :=
  s.foldl (fun acc c => empty_closure g (delta g acc c)) (empty_closure g [start])

/-! ## Invariants of the subset-construction worklist loop -/

/-- The per-character completeness fact established while processing map
entry `(K, i)`: if the move on `c` is nonempty, its closure is a recorded
DFA state and the corresponding `c`-edge from `i` has been recorded. -/
def Complete (g : NfaGraph) (st : DfaBuild) (K : List Nat) (i : Nat) (c : Char) : Prop :=
  empty_closure g (delta g K c) ≠ [] →
    ∃ j, (empty_closure g (delta g K c), j) ∈ st.final_dfa_states ∧
      (i, j, c) ∈ st.final_dfa_edges

/-- The observable `(label, target)` pairs of a DFA node's outgoing edges,
in list order. -/
def outPairs (dfa : DfaGraph) (i : Nat) : List (Char × Nat) :=
  (dfa.outgoingList i).map (fun e => (edgeLabelD dfa e, dfa.traverseD e))

/-- Bookkeeping invariant of the `build_dfa` loop, tying the DFA graph, the
duplicate-edge guard set and the subset table together.  It holds for the
initial state and is preserved by every iteration. -/
structure DfaInvCore (g : NfaGraph) (accept : Nat) (st : DfaBuild) : Prop where
  idx_lt : ∀ K i, (K, i) ∈ st.final_dfa_states → i < st.dfa.nodes.length
  keys_nodup : (st.final_dfa_states.map Prod.fst).Nodup
  idx_nodup : (st.final_dfa_states.map Prod.snd).Nodup
  acc_flag : ∀ K i, (K, i) ∈ st.final_dfa_states →
    isAcceptingD st.dfa i = decide (accept ∈ K)
  edges_sound : ∀ i j c, (i, j, c) ∈ st.final_dfa_edges →
    ∃ K, (K, i) ∈ st.final_dfa_states ∧
      empty_closure g (delta g K c) ≠ [] ∧
      (empty_closure g (delta g K c), j) ∈ st.final_dfa_states
  out_pairs_nodup : ∀ i, (outPairs st.dfa i).Nodup
  out_pairs_iff : ∀ i c j,
    (c, j) ∈ outPairs st.dfa i ↔ (i, j, c) ∈ st.final_dfa_edges
  dfa_wf : st.dfa.WF
  wl_mem : ∀ p ∈ st.worklist, p ∈ st.final_dfa_states
  wl_idx_nodup : (st.worklist.map Prod.snd).Nodup
  keys_ne : ∀ K i, (K, i) ∈ st.final_dfa_states → K ≠ []

/-- The full invariant used to prove NFA/DFA equivalence: the bookkeeping
invariant plus key bounds (for termination) and worklist-completeness
(every recorded state is either still on the worklist or fully expanded
over the alphabet). -/
structure DfaInvRich (g : NfaGraph) (accept : Nat) (alphabet : List Char) (st : DfaBuild) : Prop where
  core : DfaInvCore g accept st
  keys_range : ∀ K i, (K, i) ∈ st.final_dfa_states → ∀ x ∈ K, x < g.nodes.length
  keys_sorted : ∀ K i, (K, i) ∈ st.final_dfa_states → List.Sorted (· < ·) K
  expanded : ∀ K i, (K, i) ∈ st.final_dfa_states →
    (∃ K', (K', i) ∈ st.worklist) ∨ ∀ c ∈ alphabet, Complete g st K i c

/-! ## Theorems -/

/-- C6: the postfixer's transform, with `Concat` rendered as `.`, maps
`"(a|b)*a"` to the symbol sequence `"ab|*a."` and `"a*(b+|(a|b))?(c|d)"` to
`"a*b+ab||?.cd|."`. -/
theorem transform_fixtures :
    (transform "(a|b)*a").map displayQueue = Except.ok "ab|*a." ∧
    (transform "a*(b+|(a|b))?(c|d)").map displayQueue = Except.ok "a*b+ab||?.cd|." :=
  ⟨rfl, rfl⟩

/-- C7: `transform` returns an error (hence no postfix queue) for each of the
patterns `*a`, `|a`, `(a))`, `((a)`, `a|`, `a||a`, `a**a`: boundary
validation rejects a leading operator and a trailing binary operator,
adjacency validation rejects `||` and `**`, and the shunting yard rejects
unbalanced parentheses. -/
theorem transform_rejects_illegal_patterns :
    transform "*a" = Except.error "Error - Illegal operator usage at start of string" ∧
    transform "|a" = Except.error "Error - Illegal operator usage at start of string" ∧
    transform "(a))" = Except.error "Error - Unbalanced brackets" ∧
    transform "((a)" = Except.error "Error - Unbalanced brackets" ∧
    transform "a|" = Except.error "Error - Illegal operator usage at end of string" ∧
    transform "a||a" =
      Except.error "Error - Illegal operator sequence: ||, starting at position: 1" ∧
    transform "a**a" =
      Except.error "Error - Illegal operator sequence: **, starting at position: 1" :=
  ⟨rfl, rfl, rfl, rfl, rfl, rfl, rfl⟩

/-- C3 (code bug): `get_escaped 'f'` returns `Char '\n'` (U+000A, newline),
not the form feed U+000C that the spec's "corresponding control character"
requires; every surrounding escape (`t`, `b`, `n`, `r`, the metacharacters,
`\\`) does match the spec, making the `0x000A` on the `'f'` arm a slip for
`0x000C`. -/
theorem get_escaped_f_maps_to_newline :
    RegexSymbol.get_escaped 'f' = Except.ok (RegexSymbol.Char '\n') ∧
    ('\n' : Char) ≠ Char.ofNat 0x000C :=
  ⟨rfl, by decide⟩

/-- C10: the empty pattern passes every postfixer stage (`transform` returns
an empty queue), but `build_nfa` then pops from an empty fragment stack — a
panic (`none`), not an error of the documented taxonomy — so `search` with
the empty pattern also panics. -/
theorem empty_pattern_panics_in_build_nfa :
    transform "" = Except.ok [] ∧ build_nfa [] = none ∧ search "" "abc" false = none :=
  ⟨rfl, rfl, rfl⟩

/-- C2: `search "rUsT"` over the four-line contents with `ignore_case` set
returns exactly `["Rust:", "Trust me."]` in that order. -/
theorem search_rust_ignore_case :
    search "rUsT" "Rust:\nsafe, fast, productive.\nPick three.\nTrust me." true =
      some ["Rust:", "Trust me."] := by rfl

/-- C4 (code bug): the compile stages all succeed on the pattern `"a"`, yet
scanning the well-formed line `"é"` panics (`none`): `check_line_matches`
enumerates *byte* offsets `0..line.len()` and `&line[i..]` panics at offset
1, inside the two-byte character — contradicting the spec's "The scanner
does not fail on any well-formed input". -/
theorem scanner_panics_on_multibyte_line :
    ∃ px handle nfa, transform "a" = Except.ok px ∧ build_nfa px = some (handle, nfa) ∧
      check_line_matches (build_dfa handle nfa (get_alphabet px)).1
        (build_dfa handle nfa (get_alphabet px)).2 "é".data false = none ∧
      search "a" "é" false = none :=
  ⟨_, _, _, rfl, rfl, by rfl, by rfl⟩

/-- C9 (counterexample): on the zero-node graph, `outgoing_edges` panics
(`none`: the bounds check computes `nodes.len() - 1`, which underflows)
instead of returning the `InvalidNodeIndex` error the claim promises for
every graph. -/
theorem outgoing_edges_empty_graph_panics :
    Graph.outgoing_edges (Graph.new Bool Bool) 0 = none ∧
    ∀ msg, Graph.outgoing_edges (Graph.new Bool Bool) 0 ≠ some (Except.error msg) := by
  refine ⟨rfl, ?_⟩
  intro msg h
  simp [Graph.outgoing_edges, Graph.new] at h

/-! ### Chain and outgoing-list lemmas -/

theorem chainFrom_fuel {T U : Type} (g : Graph T U)
    (hdec : ∀ i : Nat, ∀ ed ∈ g.edges[i]?, ∀ j ∈ GEdge.next_outgoing_edge ed, j < i) :
    ∀ e fuel, e ≤ fuel → g.chainFrom fuel e = g.chainFrom e e := by
  intro e
  induction e using Nat.strong_induction_on with
  | _ e ih =>
    intro fuel hle
    match fuel, e with
    | 0, 0 => rfl
    | fuel + 1, 0 =>
      simp only [Graph.chainFrom]
      cases hne : (g.edges[0]?).bind GEdge.next_outgoing_edge with
      | none => rfl
      | some j =>
        cases hg : g.edges[0]? with
        | none => rw [hg] at hne; cases hne
        | some ed =>
          rw [hg] at hne
          simp only [Option.some_bind] at hne
          exact absurd (hdec 0 ed (by simp [hg, Option.mem_def]) j
            (by simp [hne, Option.mem_def])) (Nat.not_lt_zero j)
    | fuel + 1, e + 1 =>
      simp only [Graph.chainFrom]
      cases hne : (g.edges[e + 1]?).bind GEdge.next_outgoing_edge with
      | none => rfl
      | some e' =>
        have he' : e' < e + 1 := by
          cases hg : g.edges[e + 1]? with
          | none => rw [hg] at hne; cases hne
          | some ed =>
            rw [hg] at hne
            simp only [Option.some_bind] at hne
            exact hdec (e + 1) ed (by simp [hg, Option.mem_def]) e'
              (by simp [hne, Option.mem_def])
        have h1 : g.chainFrom fuel e' = g.chainFrom e' e' := ih e' he' fuel (by omega)
        have h2 : g.chainFrom e e' = g.chainFrom e' e' := ih e' he' e (by omega)
        dsimp only
        rw [h1, h2]

theorem chainFrom_mem_le {T U : Type} (g : Graph T U)
    (hdec : ∀ i : Nat, ∀ ed ∈ g.edges[i]?, ∀ j ∈ GEdge.next_outgoing_edge ed, j < i) :
    ∀ fuel e x, x ∈ g.chainFrom fuel e → x ≤ e := by
  intro fuel
  induction fuel with
  | zero =>
    intro e x hx
    simp only [Graph.chainFrom, List.mem_singleton] at hx
    omega
  | succ fuel ih =>
    intro e x hx
    simp only [Graph.chainFrom, List.mem_cons] at hx
    rcases hx with rfl | hx
    · exact Nat.le_refl x
    · cases hne : (g.edges[e]?).bind GEdge.next_outgoing_edge with
      | none => rw [hne] at hx; cases hx
      | some e' =>
        rw [hne] at hx
        dsimp only at hx
        have he' : e' < e := by
          cases hg : g.edges[e]? with
          | none => rw [hg] at hne; cases hne
          | some ed =>
            rw [hg] at hne
            simp only [Option.some_bind] at hne
            exact hdec e ed (by simp [hg, Option.mem_def]) e'
              (by simp [hne, Option.mem_def])
        exact Nat.le_trans (ih e' x hx) (Nat.le_of_lt he')

theorem chainFrom_nodup {T U : Type} (g : Graph T U)
    (hdec : ∀ i : Nat, ∀ ed ∈ g.edges[i]?, ∀ j ∈ GEdge.next_outgoing_edge ed, j < i) :
    ∀ fuel e, (g.chainFrom fuel e).Nodup := by
  intro fuel
  induction fuel with
  | zero => intro e; simp [Graph.chainFrom]
  | succ fuel ih =>
    intro e
    simp only [Graph.chainFrom]
    cases hne : (g.edges[e]?).bind GEdge.next_outgoing_edge with
    | none => simp
    | some e' =>
      have he' : e' < e := by
        cases hg : g.edges[e]? with
        | none => rw [hg] at hne; cases hne
        | some ed =>
          rw [hg] at hne
          simp only [Option.some_bind] at hne
          exact hdec e ed (by simp [hg, Option.mem_def]) e'
            (by simp [hne, Option.mem_def])
      refine List.nodup_cons.mpr ⟨?_, ih e'⟩
      intro hmem
      exact absurd (chainFrom_mem_le g hdec fuel e' e hmem) (by omega)

theorem chainFrom_extend {T U : Type} (g g' : Graph T U) (es' : List (GEdge U))
    (hedges : g'.edges = g.edges ++ es')
    (hdec : ∀ i : Nat, ∀ ed ∈ g.edges[i]?, ∀ j ∈ GEdge.next_outgoing_edge ed, j < i) :
    ∀ fuel e, e < g.edges.length → g'.chainFrom fuel e = g.chainFrom fuel e := by
  intro fuel
  induction fuel with
  | zero => intro e _; rfl
  | succ fuel ih =>
    intro e he
    simp only [Graph.chainFrom]
    have hsame : g'.edges[e]? = g.edges[e]? := by
      rw [hedges]; exact List.getElem?_append_left he
    rw [hsame]
    cases hne : (g.edges[e]?).bind GEdge.next_outgoing_edge with
    | none => rfl
    | some e' =>
      have he' : e' < e := by
        cases hg : g.edges[e]? with
        | none => rw [hg] at hne; cases hne
        | some ed =>
          rw [hg] at hne
          simp only [Option.some_bind] at hne
          exact hdec e ed (by simp [hg, Option.mem_def]) e'
            (by simp [hne, Option.mem_def])
      show e :: g'.chainFrom fuel e' = e :: g.chainFrom fuel e'
      rw [ih e' (Nat.lt_trans he' he)]

/-- The decreasing-next property of a well-formed graph in the form the
chain lemmas consume. -/
theorem Graph.WF.nextDec {T U : Type} {g : Graph T U} (h : g.WF) :
    ∀ i : Nat, ∀ ed ∈ g.edges[i]?, ∀ j ∈ GEdge.next_outgoing_edge ed, j < i := by
  intro i ed hed j hj
  have hi : i < g.edges.length := by
    rcases List.getElem?_eq_some.mp (Option.mem_def.mp hed) with ⟨hlt, _⟩
    exact hlt
  exact (h.2 i hi ed hed).1 j hj

theorem outgoingList_oob {T U : Type} (g : Graph T U) (i : Nat) (h : g.nodes.length ≤ i) :
    g.outgoingList i = [] := by
  unfold Graph.outgoingList
  rw [List.getElem?_eq_none h]

theorem outgoing_edges_ok {T U : Type} (g : Graph T U) (src : Nat) (hsrc : src < g.nodes.length) :
    g.outgoing_edges src = some (Except.ok (g.outgoingList src)) := by
  unfold Graph.outgoing_edges Graph.outgoingList
  rw [if_neg (by omega), if_neg (by omega)]
  cases hnd : g.nodes[src]? with
  | none => rw [List.getElem?_eq_none_iff] at hnd; omega
  | some nd => rfl

theorem outgoing_edges_err {T U : Type} (g : Graph T U) (src : Nat) (h0 : g.nodes ≠ [])
    (hsrc : g.nodes.length ≤ src) :
    g.outgoing_edges src = some (Except.error ("Error - Invalid source node index: "
      ++ toString src ++ ", must be between 0-" ++ toString (g.nodes.length - 1))) := by
  have hlen : g.nodes.length ≠ 0 := by
    intro h; exact h0 (List.eq_nil_of_length_eq_zero h)
  unfold Graph.outgoing_edges
  rw [if_neg hlen, if_pos (by omega)]

theorem WF_new (T U : Type) : (Graph.new T U).WF := by
  constructor
  · intro nd hnd; cases hnd
  · intro i hi; simp [Graph.new] at hi

theorem WF_add_node {T U : Type} (g : Graph T U) (d : T) (h : g.WF) :
    ((g.add_node d).2).WF := by
  obtain ⟨h1, h2⟩ := h
  constructor
  · intro nd hnd e he
    simp only [Graph.add_node, List.mem_append, List.mem_singleton] at hnd
    rcases hnd with hnd | rfl
    · exact h1 nd hnd e he
    · cases he
  · intro i hi ed hed
    simp only [Graph.add_node] at hi hed ⊢
    obtain ⟨hd, ht⟩ := h2 i hi ed hed
    exact ⟨hd, by simpa using Nat.lt_succ_of_lt ht⟩

theorem WF_add_edge {T U : Type} (g : Graph T U) (src tgt : Nat) (d : U)
    (h : g.WF) (hsrc : src < g.nodes.length) (htgt : tgt < g.nodes.length) :
    (g.add_edge src tgt d).WF := by
  obtain ⟨h1, h2⟩ := h
  obtain ⟨nd, hnd⟩ : ∃ nd, g.nodes[src]? = some nd :=
    ⟨g.nodes[src], List.getElem?_eq_getElem hsrc⟩
  unfold Graph.add_edge
  rw [hnd]
  constructor
  · intro nd' hnd' e he
    simp only [List.length_append, List.length_singleton]
    rcases List.mem_or_eq_of_mem_set hnd' with hmem | rfl
    · exact Nat.lt_succ_of_lt (h1 nd' hmem e he)
    · simp only [Option.mem_def, Option.some.injEq] at he
      omega
  · intro i hi ed hed
    simp only [List.length_append, List.length_singleton] at hi
    simp only [List.length_set]
    by_cases hilt : i < g.edges.length
    · rw [List.getElem?_append_left hilt] at hed
      exact h2 i hilt ed hed
    · have hieq : i = g.edges.length := by omega
      subst hieq
      rw [List.getElem?_concat_length] at hed
      cases hed
      constructor
      · intro j hj
        exact h1 nd (List.getElem?_mem hnd) j hj
      · exact htgt

theorem outgoingList_extend {T U : Type} (g g' : Graph T U) (es' : List (GEdge U)) (i : Nat)
    (hWF : g.WF) (hn : g'.nodes[i]? = g.nodes[i]?) (hedges : g'.edges = g.edges ++ es') :
    g'.outgoingList i = g.outgoingList i := by
  unfold Graph.outgoingList
  rw [hn]
  cases hnd : g.nodes[i]? with
  | none => rfl
  | some nd =>
    cases hf : nd.first_outgoing_edge with
    | none => simp [hf]
    | some e =>
      simp only [hf, Option.elim_some]
      exact chainFrom_extend g g' es' hedges hWF.nextDec e e
        (hWF.1 nd (List.getElem?_mem hnd) e (by simp [hf, Option.mem_def]))

theorem outgoingList_add_node {T U : Type} (g : Graph T U) (d : T) (hWF : g.WF) (i : Nat) :
    ((g.add_node d).2).outgoingList i = if i = g.nodes.length then [] else g.outgoingList i := by
  by_cases hi : i = g.nodes.length
  · subst hi
    rw [if_pos rfl]
    unfold Graph.outgoingList Graph.add_node
    simp only
    rw [List.getElem?_concat_length]
    rfl
  · rw [if_neg hi]
    by_cases hlt : i < g.nodes.length
    · exact outgoingList_extend g _ [] i hWF
        (by simp only [Graph.add_node]; exact List.getElem?_append_left hlt)
        (by simp [Graph.add_node])
    · rw [outgoingList_oob _ _ (by simp [Graph.add_node]; omega),
        outgoingList_oob _ _ (by omega)]

theorem outgoingList_add_edge_self {T U : Type} (g : Graph T U) (src tgt : Nat) (d : U)
    (hWF : g.WF) (hsrc : src < g.nodes.length) :
    (g.add_edge src tgt d).outgoingList src = g.edges.length :: g.outgoingList src := by
  obtain ⟨nd, hnd⟩ : ∃ nd, g.nodes[src]? = some nd :=
    ⟨g.nodes[src], List.getElem?_eq_getElem hsrc⟩
  unfold Graph.add_edge
  rw [hnd]
  unfold Graph.outgoingList
  simp only
  rw [List.getElem?_set_eq_of_lt _ hsrc, hnd]
  simp only [Option.elim_some]
  cases hL : g.edges.length with
  | zero =>
    cases hf : nd.first_outgoing_edge with
    | none => simp [Graph.chainFrom, hf]
    | some e =>
      have := hWF.1 nd (List.getElem?_mem hnd) e (by simp [hf, Option.mem_def])
      omega
  | succ L =>
    show Graph.chainFrom _ (L + 1) (L + 1) = _
    simp only [Graph.chainFrom]
    rw [← hL, List.getElem?_concat_length]
    simp only [Option.some_bind]
    cases hf : nd.first_outgoing_edge with
    | none => rfl
    | some e =>
      have he : e < g.edges.length := hWF.1 nd (List.getElem?_mem hnd) e
        (by simp [hf, Option.mem_def])
      show _ :: Graph.chainFrom _ L e = _ :: Graph.chainFrom g e e
      rw [chainFrom_extend g _ [⟨tgt, some e, d⟩] rfl hWF.nextDec L e he,
        chainFrom_fuel g hWF.nextDec e L (by omega)]

theorem outgoingList_add_edge_ne {T U : Type} (g : Graph T U) (src tgt : Nat) (d : U)
    (hWF : g.WF) (hsrc : src < g.nodes.length) (i : Nat) (hne : i ≠ src) :
    (g.add_edge src tgt d).outgoingList i = g.outgoingList i := by
  obtain ⟨nd, hnd⟩ : ∃ nd, g.nodes[src]? = some nd :=
    ⟨g.nodes[src], List.getElem?_eq_getElem hsrc⟩
  refine outgoingList_extend g _ [⟨tgt, nd.first_outgoing_edge, d⟩] i hWF ?_ ?_
  · unfold Graph.add_edge
    rw [hnd]
    exact List.getElem?_set_ne (fun h => hne h.symm)
  · unfold Graph.add_edge
    rw [hnd]

/-- C9 (amended): on a graph with at least one node, an out-of-range index
yields the `InvalidNodeIndex` error; on the zero-node graph the bounds check
underflows and the call panics instead of returning the error; for in-range
indices the call returns `Ok` of the node's outgoing-edge list, which is
maintained in most-recently-added-first order: a fresh node has no edges,
`add_edge` prepends the new edge index to its source's list and leaves every
other node's list unchanged. -/
theorem outgoing_edges_spec {T U : Type} :
    (∀ (g : Graph T U) (src : Nat), g.nodes = [] → g.outgoing_edges src = none) ∧
    (∀ (g : Graph T U) (src : Nat), g.nodes ≠ [] → g.nodes.length ≤ src →
      g.outgoing_edges src = some (Except.error ("Error - Invalid source node index: "
        ++ toString src ++ ", must be between 0-" ++ toString (g.nodes.length - 1)))) ∧
    (∀ (g : Graph T U) (src : Nat), src < g.nodes.length →
      g.outgoing_edges src = some (Except.ok (g.outgoingList src))) ∧
    (∀ (g : Graph T U) (d : T),
      ((g.add_node d).2).outgoingList g.nodes.length = []) ∧
    (∀ (g : Graph T U) (src tgt : Nat) (d : U), g.WF → src < g.nodes.length →
      (g.add_edge src tgt d).outgoingList src = g.edges.length :: g.outgoingList src) ∧
    (∀ (g : Graph T U) (src tgt i : Nat) (d : U), g.WF → src < g.nodes.length → i ≠ src →
      (g.add_edge src tgt d).outgoingList i = g.outgoingList i) := by
  refine ⟨?_, ?_, ?_, ?_, ?_, ?_⟩
  · intro g src h
    unfold Graph.outgoing_edges
    rw [if_pos (by simp [h])]
  · intro g src h0 hsrc
    exact outgoing_edges_err g src h0 hsrc
  · intro g src hsrc
    exact outgoing_edges_ok g src hsrc
  · intro g d
    unfold Graph.outgoingList Graph.add_node
    simp only
    rw [List.getElem?_concat_length]
    rfl
  · intro g src tgt d hWF hsrc
    exact outgoingList_add_edge_self g src tgt d hWF hsrc
  · intro g src tgt i d hWF hsrc hne
    exact outgoingList_add_edge_ne g src tgt d hWF hsrc i hne

/-- Witness for `outgoing_edges_spec` on concrete one-node graphs. -/
theorem outgoing_edges_spec_witness :
    (Graph.new Bool Bool).outgoing_edges 0 = none ∧
    (((Graph.new Bool Bool).add_node true).2).outgoing_edges 5 =
      some (Except.error ("Error - Invalid source node index: " ++ toString 5
        ++ ", must be between 0-"
        ++ toString ((((Graph.new Bool Bool).add_node true).2).nodes.length - 1))) ∧
    ((((Graph.new Bool Bool).add_node true).2).add_edge 0 0 false).outgoingList 0 =
      0 :: (((Graph.new Bool Bool).add_node true).2).outgoingList 0 :=
  ⟨outgoing_edges_spec.1 _ 0 rfl,
   outgoing_edges_spec.2.1 _ 5 (by decide) (by decide),
   outgoing_edges_spec.2.2.2.2.1 (((Graph.new Bool Bool).add_node true).2) 0 0 false
     (WF_add_node _ _ (WF_new Bool Bool)) (by decide)⟩

/-! ### ε-closure lemmas -/

theorem mem_insertSorted (a : Nat) (l : List Nat) (x : Nat) :
    x ∈ insertSorted a l ↔ x = a ∨ x ∈ l := by
  induction l with
  | nil => simp [insertSorted]
  | cons b l ih =>
    unfold insertSorted
    by_cases h1 : a < b
    · simp [h1]
    · by_cases h2 : a = b
      · subst h2
        simp [h1]
      · simp only [if_neg h1, if_neg h2, List.mem_cons, ih]
        tauto

theorem insertSorted_sorted (a : Nat) (l : List Nat) (h : l.Sorted (· < ·)) :
    (insertSorted a l).Sorted (· < ·) := by
  induction l with
  | nil => simp [insertSorted]
  | cons b l ih =>
    unfold insertSorted
    by_cases h1 : a < b
    · rw [if_pos h1]
      refine List.Pairwise.cons ?_ h
      intro y hy
      rcases List.mem_cons.mp hy with rfl | hy
      · exact h1
      · exact Nat.lt_trans h1 (List.rel_of_sorted_cons h y hy)
    · by_cases h2 : a = b
      · rw [if_neg h1, if_pos h2]; exact h
      · rw [if_neg h1, if_neg h2]
        refine List.Pairwise.cons ?_ (ih (List.Sorted.of_cons h))
        intro y hy
        rcases (mem_insertSorted a l y).mp hy with rfl | hy
        · omega
        · exact List.rel_of_sorted_cons h y hy

theorem mem_closurePush (g : NfaGraph) (result : List Nat) (edges : List Nat) :
    ∀ st y, y ∈ closurePush g result st edges ↔
      y ∈ st ∨ (y ∉ result ∧ ∃ e ∈ edges, edgeLabelN g e = none ∧ g.traverseD e = y) := by
  induction edges with
  | nil => intro st y; simp [closurePush]
  | cons e es ih =>
    intro st y
    show y ∈ closurePush g result _ es ↔ _
    rw [ih]
    cases hl : edgeLabelN g e with
    | some c =>
      simp only [closurePush, List.foldl_cons, hl]
      constructor
      · rintro (hy | ⟨hnr, e', he', hl', ht'⟩)
        · exact Or.inl hy
        · exact Or.inr ⟨hnr, e', List.mem_cons_of_mem _ he', hl', ht'⟩
      · rintro (hy | ⟨hnr, e', he', hl', ht'⟩)
        · exact Or.inl hy
        · rcases List.mem_cons.mp he' with rfl | he'
          · rw [hl'] at hl; cases hl
          · exact Or.inr ⟨hnr, e', he', hl', ht'⟩
    | none =>
      simp only [closurePush, List.foldl_cons, hl]
      by_cases hc : g.traverseD e ∈ result ∨ g.traverseD e ∈ st
      · rw [if_pos hc]
        constructor
        · rintro (hy | ⟨hnr, e', he', hl', ht'⟩)
          · exact Or.inl hy
          · exact Or.inr ⟨hnr, e', List.mem_cons_of_mem _ he', hl', ht'⟩
        · rintro (hy | ⟨hnr, e', he', hl', ht'⟩)
          · exact Or.inl hy
          · rcases List.mem_cons.mp he' with rfl | he'
            · subst ht'
              rcases hc with hc | hc
              · exact absurd hc hnr
              · exact Or.inl hc
            · exact Or.inr ⟨hnr, e', he', hl', ht'⟩
      · rw [if_neg hc]
        push_neg at hc
        constructor
        · rintro (hy | ⟨hnr, e', he', hl', ht'⟩)
          · rcases List.mem_cons.mp hy with rfl | hy
            · exact Or.inr ⟨hc.1, e, List.mem_cons_self e es, hl, rfl⟩
            · exact Or.inl hy
          · exact Or.inr ⟨hnr, e', List.mem_cons_of_mem _ he', hl', ht'⟩
        · rintro (hy | ⟨hnr, e', he', hl', ht'⟩)
          · exact Or.inl (List.mem_cons_of_mem _ hy)
          · rcases List.mem_cons.mp he' with rfl | he'
            · subst ht'; exact Or.inl (List.mem_cons_self _ _)
            · exact Or.inr ⟨hnr, e', he', hl', ht'⟩

theorem closurePush_nodup (g : NfaGraph) (result : List Nat) (edges : List Nat) :
    ∀ st, st.Nodup → (closurePush g result st edges).Nodup := by
  induction edges with
  | nil => intro st h; exact h
  | cons e es ih =>
    intro st h
    cases hl : edgeLabelN g e with
    | some c =>
      have hstep : closurePush g result st (e :: es) = closurePush g result st es := by
        simp only [closurePush, List.foldl_cons, hl]
      rw [hstep]
      exact ih st h
    | none =>
      by_cases hc : g.traverseD e ∈ result ∨ g.traverseD e ∈ st
      · have hstep : closurePush g result st (e :: es) = closurePush g result st es := by
          simp only [closurePush, List.foldl_cons, hl, if_pos hc]
        rw [hstep]
        exact ih st h
      · have hstep : closurePush g result st (e :: es) =
            closurePush g result (g.traverseD e :: st) es := by
          simp only [closurePush, List.foldl_cons, hl, if_neg hc]
        rw [hstep]
        push_neg at hc
        exact ih _ (List.nodup_cons.mpr ⟨hc.2, h⟩)

theorem EpsReach_mono_base (g : NfaGraph) (s s' : List Nat)
    (h : ∀ b ∈ s', EpsReach g s b) : ∀ x, EpsReach g s' x → EpsReach g s x := by
  intro x hx
  induction hx with
  | base hb => exact h _ hb
  | step _ hstep ih => exact EpsReach.step ih hstep

theorem EpsReach_closed_sub (g : NfaGraph) (t : List Nat)
    (hclosed : ∀ x ∈ t, ∀ y, EpsStep g x y → y ∈ t) :
    ∀ x, EpsReach g t x → x ∈ t := by
  intro x hx
  induction hx with
  | base hb => exact hb
  | step hx hstep ih => exact hclosed _ ih _ hstep

theorem outgoingList_lt_edges {T U : Type} (g : Graph T U) (hWF : g.WF) (i : Nat) :
    ∀ e ∈ g.outgoingList i, e < g.edges.length := by
  intro e he
  cases hnd : g.nodes[i]? with
  | none =>
    rw [outgoingList_oob g i (by rw [List.getElem?_eq_none_iff] at hnd; omega)] at he
    cases he
  | some nd =>
    have hol : g.outgoingList i = nd.first_outgoing_edge.elim [] (fun f => g.chainFrom f f) := by
      unfold Graph.outgoingList
      rw [hnd]
    rw [hol] at he
    cases hf : nd.first_outgoing_edge with
    | none => simp [hf] at he
    | some f =>
      rw [hf] at he
      simp only [Option.elim_some] at he
      have hfe : f < g.edges.length :=
        hWF.1 nd (List.getElem?_mem hnd) f (by simp [hf, Option.mem_def])
      exact Nat.lt_of_le_of_lt (chainFrom_mem_le g hWF.nextDec f f e he) hfe

theorem traverseD_lt {T U : Type} (g : Graph T U) (hWF : g.WF) (e : Nat)
    (he : e < g.edges.length) : g.traverseD e < g.nodes.length := by
  unfold Graph.traverseD
  cases hed : g.edges[e]? with
  | none => rw [List.getElem?_eq_none_iff] at hed; omega
  | some ed => exact ((hWF.2 e he ed (by simp [hed, Option.mem_def]))).2

theorem closureLoop_nil (g : NfaGraph) (fuel : Nat) (result : List Nat) :
    closureLoop g fuel [] result = result := by
  cases fuel <;> rfl

theorem closureLoop_sorted (g : NfaGraph) :
    ∀ fuel stack result, result.Sorted (· < ·) →
      (closureLoop g fuel stack result).Sorted (· < ·) := by
  intro fuel
  induction fuel with
  | zero =>
    intro stack result h
    cases stack with
    | nil => exact h
    | cons current rest => exact h
  | succ fuel ih =>
    intro stack result h
    cases stack with
    | nil => exact h
    | cons current rest =>
      exact ih _ _ (insertSorted_sorted current result h)

/-- Main invariant lemma for the `empty_closure` DFS: with enough fuel
(each iteration moves a fresh in-range element into the result), the loop
result contains the initial result and stack, is closed under ε-steps,
stays in range, and only contains states ε-reachable from stack ∪ result. -/
theorem closureLoop_spec (g : NfaGraph) (hWF : g.WF) :
    ∀ fuel (stack result : List Nat),
      stack.Nodup →
      (∀ x ∈ stack, x ∉ result) →
      (∀ x ∈ stack, x < g.nodes.length) →
      (∀ x ∈ result, x < g.nodes.length) →
      (∀ x ∈ result, ∀ y, EpsStep g x y → y ∈ result ∨ y ∈ stack) →
      ((Finset.range g.nodes.length).filter (fun x => x ∉ result)).card ≤ fuel →
      (∀ x ∈ result, x ∈ closureLoop g fuel stack result) ∧
      (∀ x ∈ stack, x ∈ closureLoop g fuel stack result) ∧
      (∀ x ∈ closureLoop g fuel stack result, ∀ y, EpsStep g x y →
        y ∈ closureLoop g fuel stack result) ∧
      (∀ x ∈ closureLoop g fuel stack result, x < g.nodes.length) ∧
      (∀ x ∈ closureLoop g fuel stack result, EpsReach g (stack ++ result) x) := by
  intro fuel
  induction fuel with
  | zero =>
    intro stack result hnd hdisj hstlt hreslt hclosed hcard
    cases stack with
    | nil =>
      rw [closureLoop_nil]
      refine ⟨fun x hx => hx, fun x hx => (by cases hx), ?_, hreslt, ?_⟩
      · intro x hx y hy
        rcases hclosed x hx y hy with h | h
        · exact h
        · cases h
      · intro x hx
        exact EpsReach.base (by simpa using hx)
    | cons current rest =>
      exfalso
      have hmem : current ∈ (Finset.range g.nodes.length).filter (fun x => x ∉ result) := by
        simp only [Finset.mem_filter, Finset.mem_range]
        exact ⟨hstlt current (List.mem_cons_self _ _), hdisj current (List.mem_cons_self _ _)⟩
      have hpos : 0 < ((Finset.range g.nodes.length).filter (fun x => x ∉ result)).card :=
        Finset.card_pos.mpr ⟨current, hmem⟩
      omega
  | succ fuel ih =>
    intro stack result hnd hdisj hstlt hreslt hclosed hcard
    cases stack with
    | nil =>
      rw [closureLoop_nil]
      refine ⟨fun x hx => hx, fun x hx => (by cases hx), ?_, hreslt, ?_⟩
      · intro x hx y hy
        rcases hclosed x hx y hy with h | h
        · exact h
        · cases h
      · intro x hx
        exact EpsReach.base (by simpa using hx)
    | cons current rest =>
      have hcur_res : current ∉ result := hdisj _ (List.mem_cons_self _ _)
      have hcur_lt : current < g.nodes.length := hstlt _ (List.mem_cons_self _ _)
      have hcur_rest : current ∉ rest := (List.nodup_cons.mp hnd).1
      have hrest_nd : rest.Nodup := (List.nodup_cons.mp hnd).2
      have heq : closureLoop g (fuel + 1) (current :: rest) result =
          closureLoop g fuel (closurePush g (insertSorted current result) rest
            (g.outgoingList current)) (insertSorted current result) := rfl
      rw [heq]
      have hmemr' : ∀ x, x ∈ insertSorted current result ↔ x = current ∨ x ∈ result :=
        fun x => mem_insertSorted current result x
      have hpush : ∀ y, y ∈ closurePush g (insertSorted current result) rest
          (g.outgoingList current) ↔
          y ∈ rest ∨ (y ∉ insertSorted current result ∧ EpsStep g current y) := by
        intro y
        rw [mem_closurePush]
        unfold EpsStep
        tauto
      -- re-established hypotheses
      have h1 : (closurePush g (insertSorted current result) rest
          (g.outgoingList current)).Nodup :=
        closurePush_nodup g _ _ _ hrest_nd
      have h2 : ∀ x ∈ closurePush g (insertSorted current result) rest
          (g.outgoingList current), x ∉ insertSorted current result := by
        intro x hx
        rcases (hpush x).mp hx with hxr | ⟨hnr, _⟩
        · rw [hmemr']
          rintro (heq' | hres)
          · exact hcur_rest (heq' ▸ hxr)
          · exact hdisj x (List.mem_cons_of_mem _ hxr) hres
        · exact hnr
      have h3 : ∀ x ∈ closurePush g (insertSorted current result) rest
          (g.outgoingList current), x < g.nodes.length := by
        intro x hx
        rcases (hpush x).mp hx with hx | ⟨_, e, he, _, ht⟩
        · exact hstlt x (List.mem_cons_of_mem _ hx)
        · rw [← ht]
          exact traverseD_lt g hWF e (outgoingList_lt_edges g hWF current e he)
      have h4 : ∀ x ∈ insertSorted current result, x < g.nodes.length := by
        intro x hx
        rcases (hmemr' x).mp hx with rfl | hx
        · exact hcur_lt
        · exact hreslt x hx
      have h5 : ∀ x ∈ insertSorted current result, ∀ y, EpsStep g x y →
          y ∈ insertSorted current result ∨ y ∈ closurePush g (insertSorted current result)
            rest (g.outgoingList current) := by
        intro x hx y hy
        rcases (hmemr' x).mp hx with rfl | hx
        · by_cases hyr : y ∈ insertSorted x result
          · exact Or.inl hyr
          · exact Or.inr ((hpush y).mpr (Or.inr ⟨hyr, hy⟩))
        · rcases hclosed x hx y hy with hyr | hys
          · exact Or.inl ((hmemr' y).mpr (Or.inr hyr))
          · rcases List.mem_cons.mp hys with rfl | hys
            · exact Or.inl ((hmemr' y).mpr (Or.inl rfl))
            · exact Or.inr ((hpush y).mpr (Or.inl hys))
      have h6 : ((Finset.range g.nodes.length).filter
          (fun x => x ∉ insertSorted current result)).card ≤ fuel := by
        have hfe : (Finset.range g.nodes.length).filter
            (fun x => x ∉ insertSorted current result) =
            ((Finset.range g.nodes.length).filter (fun x => x ∉ result)).erase current := by
          ext x
          simp only [Finset.mem_filter, Finset.mem_range, Finset.mem_erase, hmemr']
          tauto
        have hmem : current ∈ (Finset.range g.nodes.length).filter (fun x => x ∉ result) := by
          simp only [Finset.mem_filter, Finset.mem_range]
          exact ⟨hcur_lt, hcur_res⟩
        rw [hfe, Finset.card_erase_of_mem hmem]
        have hpos : 0 < ((Finset.range g.nodes.length).filter (fun x => x ∉ result)).card :=
          Finset.card_pos.mpr ⟨current, hmem⟩
        omega
      obtain ⟨cA, cB, cC, cD, cE⟩ := ih _ _ h1 h2 h3 h4 h5 h6
      refine ⟨?_, ?_, cC, cD, ?_⟩
      · intro x hx
        exact cA x ((hmemr' x).mpr (Or.inr hx))
      · intro x hx
        rcases List.mem_cons.mp hx with rfl | hx
        · exact cA x ((hmemr' x).mpr (Or.inl rfl))
        · exact cB x ((hpush x).mpr (Or.inl hx))
      · intro x hx
        refine EpsReach_mono_base g (current :: rest ++ result) _ ?_ x (cE x hx)
        intro b hb
        rcases List.mem_append.mp hb with hb | hb
        · rcases (hpush b).mp hb with hb | ⟨_, hstep⟩
          · exact EpsReach.base (by simp [hb])
          · exact EpsReach.step (EpsReach.base (by simp)) hstep
        · rcases (hmemr' b).mp hb with rfl | hb
          · exact EpsReach.base (by simp)
          · exact EpsReach.base (by simp [hb])

theorem empty_closure_spec (g : NfaGraph) (hWF : g.WF) (s : List Nat)
    (hnd : s.Nodup) (hrange : ∀ x ∈ s, x < g.nodes.length) :
    (∀ x ∈ s, x ∈ empty_closure g s) ∧
    (∀ x ∈ empty_closure g s, ∀ y, EpsStep g x y → y ∈ empty_closure g s) ∧
    (∀ x ∈ empty_closure g s, x < g.nodes.length) ∧
    (∀ x ∈ empty_closure g s, EpsReach g s x) ∧
    (∀ x, EpsReach g s x → x ∈ empty_closure g s) := by
  obtain ⟨cA, cB, cC, cD, cE⟩ := closureLoop_spec g hWF (s.length + g.nodes.length + 1)
    s.reverse []
    (List.nodup_reverse.mpr hnd)
    (by intro x _ hx; cases hx)
    (by intro x hx; exact hrange x (List.mem_reverse.mp hx))
    (by intro x hx; cases hx)
    (by intro x hx; cases hx)
    (by
      have h1 := Finset.card_filter_le (Finset.range g.nodes.length) (fun x => x ∉ ([] : List Nat))
      rw [Finset.card_range] at h1
      omega)
  unfold empty_closure
  refine ⟨?_, cC, cD, ?_, ?_⟩
  · intro x hx
    exact cB x (List.mem_reverse.mpr hx)
  · intro x hx
    refine EpsReach_mono_base g s _ ?_ x (cE x hx)
    intro b hb
    refine EpsReach.base ?_
    simpa using hb
  · intro x hx
    induction hx with
    | base hb => exact cB _ (List.mem_reverse.mpr hb)
    | step _ hstep ih => exact cC _ ih _ hstep

theorem empty_closure_sorted (g : NfaGraph) (s : List Nat) :
    (empty_closure g s).Sorted (· < ·) :=
  closureLoop_sorted g _ _ _ (by simp)

/-- C8: ε-closure is idempotent — `empty_closure` applied to its own result
returns the same set again — and the closure always contains the initial
set. -/
theorem empty_closure_idempotent (g : NfaGraph) (s : List Nat) (hWF : g.WF)
    (hsort : s.Sorted (· < ·)) (hrange : ∀ x ∈ s, x < g.nodes.length) :
    empty_closure g (empty_closure g s) = empty_closure g s ∧
    ∀ x ∈ s, x ∈ empty_closure g s := by
  have hnd : s.Nodup := hsort.imp (fun h => Nat.ne_of_lt h)
  obtain ⟨hext, hclosed, hlt, hsound, hcompl⟩ := empty_closure_spec g hWF s hnd hrange
  have hCsort := empty_closure_sorted g s
  have hCnd : (empty_closure g s).Nodup := hCsort.imp (fun h => Nat.ne_of_lt h)
  obtain ⟨hext2, hclosed2, hlt2, hsound2, hcompl2⟩ :=
    empty_closure_spec g hWF (empty_closure g s) hCnd hlt
  refine ⟨?_, hext⟩
  have hmem : ∀ x, x ∈ empty_closure g (empty_closure g s) ↔ x ∈ empty_closure g s := by
    intro x
    constructor
    · intro hx
      exact EpsReach_closed_sub g _ hclosed x (hsound2 x hx)
    · intro hx
      exact hext2 x hx
  have hCCsort := empty_closure_sorted g (empty_closure g s)
  have hCCnd : (empty_closure g (empty_closure g s)).Nodup :=
    hCCsort.imp (fun h => Nat.ne_of_lt h)
  haveI : IsAntisymm Nat (· < ·) := ⟨fun a b h1 h2 => absurd h2 (Nat.lt_asymm h1)⟩
  exact List.eq_of_perm_of_sorted
    ((List.perm_ext_iff_of_nodup hCCnd hCnd).mpr hmem) hCCsort hCsort

/-- Witness for `empty_closure_idempotent` on a two-node NFA with one
ε-edge `0 → 1`. -/
theorem empty_closure_idempotent_witness :
    empty_closure
        ((((Graph.new AutomataState AutomataLabel).add_node ⟨false⟩).2.add_node
          ⟨false⟩).2.add_edge 0 1 none)
        (empty_closure
          ((((Graph.new AutomataState AutomataLabel).add_node ⟨false⟩).2.add_node
            ⟨false⟩).2.add_edge 0 1 none) [0]) =
      empty_closure
        ((((Graph.new AutomataState AutomataLabel).add_node ⟨false⟩).2.add_node
          ⟨false⟩).2.add_edge 0 1 none) [0] ∧
    ∀ x ∈ [0], x ∈ empty_closure
        ((((Graph.new AutomataState AutomataLabel).add_node ⟨false⟩).2.add_node
          ⟨false⟩).2.add_edge 0 1 none) [0] :=
  empty_closure_idempotent _ [0]
    (WF_add_edge _ 0 1 none
      (WF_add_node _ _ (WF_add_node _ _ (WF_new AutomataState AutomataLabel)))
      (by decide) (by decide))
    (by simp)
    (by decide)

/-! ### Subset-construction bookkeeping lemmas -/

theorem lookupState_mem {m : List (List Nat × Nat)} {key : List Nat} {j : Nat}
    (h : lookupState m key = some j) : (key, j) ∈ m := by
  induction m with
  | nil => cases h
  | cons p rest ih =>
    unfold lookupState at h
    by_cases hk : p.1 = key
    · rw [if_pos hk] at h
      cases h
      obtain ⟨a, b⟩ := p
      cases hk
      exact List.mem_cons_self _ _
    · rw [if_neg hk] at h
      exact List.mem_cons_of_mem _ (ih h)

theorem lookupState_none {m : List (List Nat × Nat)} {key : List Nat}
    (h : lookupState m key = none) : ∀ j, (key, j) ∉ m := by
  induction m with
  | nil => intro j hj; cases hj
  | cons p rest ih =>
    unfold lookupState at h
    by_cases hk : p.1 = key
    · rw [if_pos hk] at h; cases h
    · rw [if_neg hk] at h
      intro j hj
      rcases List.mem_cons.mp hj with rfl | hj
      · exact hk rfl
      · exact ih h j hj

theorem entry_eq_of_idx {m : List (List Nat × Nat)} (hnd : (m.map Prod.snd).Nodup)
    {K K' : List Nat} {i : Nat} (h1 : (K, i) ∈ m) (h2 : (K', i) ∈ m) : K = K' := by
  have := List.inj_on_of_nodup_map hnd h1 h2 rfl
  exact congrArg Prod.fst this

theorem entry_eq_of_key {m : List (List Nat × Nat)} (hnd : (m.map Prod.fst).Nodup)
    {K : List Nat} {i j : Nat} (h1 : (K, i) ∈ m) (h2 : (K, j) ∈ m) : i = j := by
  have := List.inj_on_of_nodup_map hnd h1 h2 rfl
  exact congrArg Prod.snd this

theorem outgoingList_nodup {T U : Type} (g : Graph T U) (hWF : g.WF) (i : Nat) :
    (g.outgoingList i).Nodup := by
  cases hnd : g.nodes[i]? with
  | none =>
    rw [outgoingList_oob g i (by rw [List.getElem?_eq_none_iff] at hnd; omega)]
    exact List.nodup_nil
  | some nd =>
    have hol : g.outgoingList i = nd.first_outgoing_edge.elim [] (fun f => g.chainFrom f f) := by
      unfold Graph.outgoingList
      rw [hnd]
    rw [hol]
    cases hf : nd.first_outgoing_edge with
    | none => simp [hf]
    | some f =>
      simp only [hf, Option.elim_some]
      exact chainFrom_nodup g hWF.nextDec f f

theorem isAcceptingD_add_node_lt (g : DfaGraph) (d : AutomataState) (i : Nat)
    (hi : i < g.nodes.length) : isAcceptingD ((g.add_node d).2) i = isAcceptingD g i := by
  unfold isAcceptingD Graph.add_node
  simp only
  rw [List.getElem?_append_left hi]

theorem isAcceptingD_add_node_new (g : DfaGraph) (d : AutomataState) :
    isAcceptingD ((g.add_node d).2) g.nodes.length = d.accepting := by
  unfold isAcceptingD Graph.add_node
  simp only
  rw [List.getElem?_concat_length]

theorem isAcceptingD_add_edge (g : DfaGraph) (src tgt : Nat) (c : Char) (i : Nat) :
    isAcceptingD (g.add_edge src tgt c) i = isAcceptingD g i := by
  unfold Graph.add_edge
  cases hnd : g.nodes[src]? with
  | none => rfl
  | some nd =>
    unfold isAcceptingD
    simp only
    by_cases hi : i = src
    · subst hi
      have hlt : i < g.nodes.length := by
        rcases List.getElem?_eq_some.mp hnd with ⟨hlt, _⟩
        exact hlt
      rw [List.getElem?_set_eq_of_lt _ hlt, hnd]
    · rw [List.getElem?_set_ne (fun h => hi h.symm)]

theorem edgeLabelD_extend (g g' : DfaGraph) (es' : List (GEdge Char))
    (hedges : g'.edges = g.edges ++ es') (e : Nat) (he : e < g.edges.length) :
    edgeLabelD g' e = edgeLabelD g e := by
  unfold edgeLabelD
  rw [hedges, List.getElem?_append_left he]

theorem traverseD_extend {T U : Type} (g g' : Graph T U) (es' : List (GEdge U))
    (hedges : g'.edges = g.edges ++ es') (e : Nat) (he : e < g.edges.length) :
    g'.traverseD e = g.traverseD e := by
  unfold Graph.traverseD
  rw [hedges, List.getElem?_append_left he]
  cases hed : g.edges[e]? with
  | none => rw [List.getElem?_eq_none_iff] at hed; omega
  | some ed => rfl

theorem outPairs_add_node (g : DfaGraph) (d : AutomataState) (hWF : g.WF) (i : Nat) :
    outPairs ((g.add_node d).2) i = if i = g.nodes.length then [] else outPairs g i := by
  unfold outPairs
  rw [outgoingList_add_node g d hWF i]
  by_cases hi : i = g.nodes.length
  · rw [if_pos hi, if_pos hi]
    rfl
  · rw [if_neg hi, if_neg hi]
    apply List.map_congr_left
    intro e he
    have helt : e < g.edges.length := outgoingList_lt_edges g hWF i e he
    rw [edgeLabelD_extend g _ [] (by simp [Graph.add_node]) e helt,
      traverseD_extend g _ [] (by simp [Graph.add_node]) e helt]

theorem outPairs_add_edge_self (g : DfaGraph) (src tgt : Nat) (c : Char)
    (hWF : g.WF) (hsrc : src < g.nodes.length) :
    outPairs (g.add_edge src tgt c) src = (c, tgt) :: outPairs g src := by
  obtain ⟨nd, hnd⟩ : ∃ nd, g.nodes[src]? = some nd :=
    ⟨g.nodes[src], List.getElem?_eq_getElem hsrc⟩
  have hedges : (g.add_edge src tgt c).edges = g.edges ++ [⟨tgt, nd.first_outgoing_edge, c⟩] := by
    unfold Graph.add_edge
    rw [hnd]
  unfold outPairs
  rw [outgoingList_add_edge_self g src tgt c hWF hsrc]
  rw [List.map_cons]
  congr 1
  · have hL : edgeLabelD (g.add_edge src tgt c) g.edges.length = c := by
      unfold edgeLabelD
      rw [hedges, List.getElem?_concat_length]
    have hT : (g.add_edge src tgt c).traverseD g.edges.length = tgt := by
      unfold Graph.traverseD
      rw [hedges, List.getElem?_concat_length]
    rw [hL, hT]
  · apply List.map_congr_left
    intro e he
    have helt : e < g.edges.length := outgoingList_lt_edges g hWF src e he
    rw [edgeLabelD_extend g _ _ hedges e helt, traverseD_extend g _ _ hedges e helt]

theorem outPairs_add_edge_ne (g : DfaGraph) (src tgt : Nat) (c : Char)
    (hWF : g.WF) (hsrc : src < g.nodes.length) (i : Nat) (hne : i ≠ src) :
    outPairs (g.add_edge src tgt c) i = outPairs g i := by
  obtain ⟨nd, hnd⟩ : ∃ nd, g.nodes[src]? = some nd :=
    ⟨g.nodes[src], List.getElem?_eq_getElem hsrc⟩
  have hedges : (g.add_edge src tgt c).edges = g.edges ++ [⟨tgt, nd.first_outgoing_edge, c⟩] := by
    unfold Graph.add_edge
    rw [hnd]
  unfold outPairs
  rw [outgoingList_add_edge_ne g src tgt c hWF hsrc i hne]
  apply List.map_congr_left
  intro e he
  have helt : e < g.edges.length := outgoingList_lt_edges g hWF i e he
  rw [edgeLabelD_extend g _ _ hedges e helt, traverseD_extend g _ _ hedges e helt]

theorem add_node_fst {T U : Type} (g : Graph T U) (d : T) :
    (g.add_node d).1 = g.nodes.length := rfl

theorem add_node_nodes_length {T U : Type} (g : Graph T U) (d : T) :
    ((g.add_node d).2).nodes.length = g.nodes.length + 1 := by
  simp [Graph.add_node]

theorem add_edge_nodes_length {T U : Type} (g : Graph T U) (src tgt : Nat) (d : U) :
    (g.add_edge src tgt d).nodes.length = g.nodes.length := by
  unfold Graph.add_edge
  cases hnd : g.nodes[src]? with
  | none => rfl
  | some nd => simp

theorem dfaStep_nil (g : NfaGraph) (accept : Nat) (K : List Nat) (i : Nat)
    (st : DfaBuild) (c : Char) (h : empty_closure g (delta g K c) = []) :
    dfaStep g accept K i st c = st := by
  unfold dfaStep
  rw [if_pos h]

theorem dfaStep_found_dup (g : NfaGraph) (accept : Nat) (K : List Nat) (i : Nat)
    (st : DfaBuild) (c : Char) (j : Nat)
    (hne : empty_closure g (delta g K c) ≠ [])
    (hlk : lookupState st.final_dfa_states (empty_closure g (delta g K c)) = some j)
    (hdup : (i, j, c) ∈ st.final_dfa_edges) :
    dfaStep g accept K i st c = st := by
  unfold dfaStep
  rw [if_neg hne, hlk]
  simp only
  rw [if_pos hdup]

theorem dfaStep_found_new (g : NfaGraph) (accept : Nat) (K : List Nat) (i : Nat)
    (st : DfaBuild) (c : Char) (j : Nat)
    (hne : empty_closure g (delta g K c) ≠ [])
    (hlk : lookupState st.final_dfa_states (empty_closure g (delta g K c)) = some j)
    (hdup : (i, j, c) ∉ st.final_dfa_edges) :
    dfaStep g accept K i st c =
      { st with
          final_dfa_edges := (i, j, c) :: st.final_dfa_edges,
          dfa := st.dfa.add_edge i j c } := by
  unfold dfaStep
  rw [if_neg hne, hlk]
  simp only
  rw [if_neg hdup]

theorem dfaStep_fresh (g : NfaGraph) (accept : Nat) (K : List Nat) (i : Nat)
    (st : DfaBuild) (c : Char)
    (hne : empty_closure g (delta g K c) ≠ [])
    (hlk : lookupState st.final_dfa_states (empty_closure g (delta g K c)) = none)
    (hdup : (i, st.dfa.nodes.length, c) ∉ st.final_dfa_edges) :
    dfaStep g accept K i st c =
      { dfa := ((st.dfa.add_node
            ⟨decide (accept ∈ empty_closure g (delta g K c))⟩).2).add_edge
            i st.dfa.nodes.length c,
        final_dfa_edges := (i, st.dfa.nodes.length, c) :: st.final_dfa_edges,
        final_dfa_states := (empty_closure g (delta g K c), st.dfa.nodes.length)
          :: st.final_dfa_states,
        worklist := st.worklist ++ [(empty_closure g (delta g K c), st.dfa.nodes.length)] } := by
  unfold dfaStep
  rw [if_neg hne, hlk]
  simp only
  rw [add_node_fst, if_neg hdup]

/-- Recording a fresh `c`-edge `(i, j, c)` (both endpoints known states,
`j` the state of the nonempty move closure) preserves the bookkeeping
invariant. -/
theorem core_add_edge (g : NfaGraph) (accept : Nat) (st : DfaBuild)
    (K : List Nat) (i j : Nat) (c : Char)
    (hinv : DfaInvCore g accept st)
    (hK : (K, i) ∈ st.final_dfa_states)
    (hne : empty_closure g (delta g K c) ≠ [])
    (hT : (empty_closure g (delta g K c), j) ∈ st.final_dfa_states)
    (hdup : (i, j, c) ∉ st.final_dfa_edges) :
    DfaInvCore g accept
      { st with final_dfa_edges := (i, j, c) :: st.final_dfa_edges,
                dfa := st.dfa.add_edge i j c } := by
  have hi : i < st.dfa.nodes.length := hinv.idx_lt K i hK
  have hj : j < st.dfa.nodes.length := hinv.idx_lt _ j hT
  refine ⟨?_, hinv.keys_nodup, hinv.idx_nodup, ?_, ?_, ?_, ?_, ?_,
    hinv.wl_mem, hinv.wl_idx_nodup, hinv.keys_ne⟩
  · intro K' i' h
    rw [add_edge_nodes_length]
    exact hinv.idx_lt K' i' h
  · intro K' i' h
    rw [isAcceptingD_add_edge]
    exact hinv.acc_flag K' i' h
  · intro i' j' c' h
    rcases List.mem_cons.mp h with heq | hold
    · injection heq with h1 h23
      injection h23 with h2 h3
      subst h1; subst h2; subst h3
      exact ⟨K, hK, hne, hT⟩
    · obtain ⟨K', hK', hne', hT'⟩ := hinv.edges_sound i' j' c' hold
      exact ⟨K', hK', hne', hT'⟩
  · intro i''
    show (outPairs (st.dfa.add_edge i j c) i'').Nodup
    by_cases hii : i'' = i
    · subst hii
      rw [outPairs_add_edge_self st.dfa i'' j c hinv.dfa_wf hi]
      refine List.nodup_cons.mpr ⟨?_, hinv.out_pairs_nodup i''⟩
      intro hmem
      exact hdup ((hinv.out_pairs_iff i'' c j).mp hmem)
    · rw [outPairs_add_edge_ne st.dfa i j c hinv.dfa_wf hi i'' hii]
      exact hinv.out_pairs_nodup i''
  · intro i'' c' j'
    show (c', j') ∈ outPairs (st.dfa.add_edge i j c) i'' ↔
      (i'', j', c') ∈ (i, j, c) :: st.final_dfa_edges
    by_cases hii : i'' = i
    · subst hii
      rw [outPairs_add_edge_self st.dfa i'' j c hinv.dfa_wf hi]
      simp only [List.mem_cons, Prod.mk.injEq, hinv.out_pairs_iff i'' c' j',
        eq_self_iff_true, true_and]
      tauto
    · rw [outPairs_add_edge_ne st.dfa i j c hinv.dfa_wf hi i'' hii,
        hinv.out_pairs_iff i'' c' j']
      constructor
      · exact fun h => List.mem_cons_of_mem _ h
      · intro h
        rcases List.mem_cons.mp h with heq | hold
        · injection heq with h1 _
          exact absurd h1 hii
        · exact hold
  · exact WF_add_edge st.dfa i j c hinv.dfa_wf hi hj

/-- Recording a fresh DFA state (a nonempty, previously unseen subset)
preserves the bookkeeping invariant. -/
theorem core_add_state (g : NfaGraph) (accept : Nat) (st : DfaBuild) (T : List Nat)
    (hinv : DfaInvCore g accept st)
    (hTnew : ∀ j, (T, j) ∉ st.final_dfa_states)
    (hTne : T ≠ []) :
    DfaInvCore g accept
      { dfa := (st.dfa.add_node ⟨decide (accept ∈ T)⟩).2,
        final_dfa_edges := st.final_dfa_edges,
        final_dfa_states := (T, st.dfa.nodes.length) :: st.final_dfa_states,
        worklist := st.worklist ++ [(T, st.dfa.nodes.length)] } := by
  refine ⟨?_, ?_, ?_, ?_, ?_, ?_, ?_, ?_, ?_, ?_, ?_⟩
  · intro K' i' h
    rw [add_node_nodes_length]
    rcases List.mem_cons.mp h with heq | hold
    · injection heq with _ h2
      omega
    · exact Nat.lt_succ_of_lt (hinv.idx_lt K' i' hold)
  · show (((T, st.dfa.nodes.length) :: st.final_dfa_states).map Prod.fst).Nodup
    rw [List.map_cons]
    refine List.nodup_cons.mpr ⟨?_, hinv.keys_nodup⟩
    intro hmem
    obtain ⟨p, hp, hfst⟩ := List.mem_map.mp hmem
    have hfst' : p.1 = T := hfst
    have hp' : (T, p.2) ∈ st.final_dfa_states := by
      rw [← hfst']
      exact hp
    exact hTnew p.2 hp'
  · show (((T, st.dfa.nodes.length) :: st.final_dfa_states).map Prod.snd).Nodup
    rw [List.map_cons]
    refine List.nodup_cons.mpr ⟨?_, hinv.idx_nodup⟩
    intro hmem
    obtain ⟨p, hp, hsnd⟩ := List.mem_map.mp hmem
    have := hinv.idx_lt p.1 p.2 (by exact hp)
    omega
  · intro K' i' h
    rcases List.mem_cons.mp h with heq | hold
    · injection heq with h1 h2
      subst h1; subst h2
      rw [isAcceptingD_add_node_new]
    · rw [isAcceptingD_add_node_lt _ _ _ (hinv.idx_lt K' i' hold)]
      exact hinv.acc_flag K' i' hold
  · intro i' j' c' h
    obtain ⟨K', hK', hne', hT'⟩ := hinv.edges_sound i' j' c' h
    exact ⟨K', List.mem_cons_of_mem _ hK', hne', List.mem_cons_of_mem _ hT'⟩
  · intro i''
    show (outPairs ((st.dfa.add_node ⟨decide (accept ∈ T)⟩).2) i'').Nodup
    rw [outPairs_add_node st.dfa _ hinv.dfa_wf i'']
    by_cases hii : i'' = st.dfa.nodes.length
    · rw [if_pos hii]; exact List.nodup_nil
    · rw [if_neg hii]; exact hinv.out_pairs_nodup i''
  · intro i'' c' j'
    show (c', j') ∈ outPairs ((st.dfa.add_node ⟨decide (accept ∈ T)⟩).2) i'' ↔
      (i'', j', c') ∈ st.final_dfa_edges
    rw [outPairs_add_node st.dfa _ hinv.dfa_wf i'']
    by_cases hii : i'' = st.dfa.nodes.length
    · rw [if_pos hii]
      subst hii
      constructor
      · intro h; cases h
      · intro h
        obtain ⟨K', hK', _, _⟩ := hinv.edges_sound _ j' c' h
        have := hinv.idx_lt K' _ hK'
        omega
    · rw [if_neg hii]
      exact hinv.out_pairs_iff i'' c' j'
  · exact WF_add_node st.dfa _ hinv.dfa_wf
  · intro p hp
    rcases List.mem_append.mp hp with hp | hp
    · exact List.mem_cons_of_mem _ (hinv.wl_mem p hp)
    · rcases List.mem_singleton.mp hp with rfl
      exact List.mem_cons_self _ _
  · show ((st.worklist ++ [(T, st.dfa.nodes.length)]).map Prod.snd).Nodup
    rw [List.map_append]
    rw [List.nodup_append]
    refine ⟨hinv.wl_idx_nodup, List.nodup_singleton _, ?_⟩
    intro a ha hb
    rcases List.mem_singleton.mp hb with rfl
    obtain ⟨p, hp, hsnd⟩ := List.mem_map.mp ha
    have := hinv.idx_lt p.1 p.2 (hinv.wl_mem p hp)
    omega
  · intro K' i' h
    rcases List.mem_cons.mp h with heq | hold
    · injection heq with h1 _
      subst h1
      exact hTne
    · exact hinv.keys_ne K' i' hold

/-- One `dfaStep` preserves the bookkeeping invariant; the table and guard
set only grow; the worklist grows only by entries with fresh indices; and
afterwards the processed `(K, i)` pair is complete for `c`. -/
theorem dfaStep_core (g : NfaGraph) (accept : Nat) (K : List Nat) (i : Nat)
    (st : DfaBuild) (c : Char)
    (hinv : DfaInvCore g accept st) (hK : (K, i) ∈ st.final_dfa_states) :
    DfaInvCore g accept (dfaStep g accept K i st c) ∧
    (∀ p ∈ st.final_dfa_states, p ∈ (dfaStep g accept K i st c).final_dfa_states) ∧
    (∀ t ∈ st.final_dfa_edges, t ∈ (dfaStep g accept K i st c).final_dfa_edges) ∧
    (∀ p ∈ (dfaStep g accept K i st c).worklist, p ∈ st.worklist ∨ st.dfa.nodes.length ≤ p.2) ∧
    (∀ p ∈ st.worklist, p ∈ (dfaStep g accept K i st c).worklist) ∧
    st.dfa.nodes.length ≤ (dfaStep g accept K i st c).dfa.nodes.length ∧
    Complete g (dfaStep g accept K i st c) K i c := by
  by_cases hne : empty_closure g (delta g K c) = []
  · rw [dfaStep_nil g accept K i st c hne]
    exact ⟨hinv, fun p hp => hp, fun t ht => ht, fun p hp => Or.inl hp, fun p hp => hp,
      Nat.le_refl _, fun h => absurd hne h⟩
  · cases hlk : lookupState st.final_dfa_states (empty_closure g (delta g K c)) with
    | some j =>
      by_cases hdup : (i, j, c) ∈ st.final_dfa_edges
      · rw [dfaStep_found_dup g accept K i st c j hne hlk hdup]
        exact ⟨hinv, fun p hp => hp, fun t ht => ht, fun p hp => Or.inl hp, fun p hp => hp,
          Nat.le_refl _, fun _ => ⟨j, lookupState_mem hlk, hdup⟩⟩
      · rw [dfaStep_found_new g accept K i st c j hne hlk hdup]
        refine ⟨core_add_edge g accept st K i j c hinv hK hne (lookupState_mem hlk) hdup,
          fun p hp => hp, fun t ht => List.mem_cons_of_mem _ ht, fun p hp => Or.inl hp,
          fun p hp => hp, ?_, ?_⟩
        · rw [add_edge_nodes_length]
        · exact fun _ => ⟨j, lookupState_mem hlk, List.mem_cons_self _ _⟩
    | none =>
      have hdup : (i, st.dfa.nodes.length, c) ∉ st.final_dfa_edges := by
        intro h
        obtain ⟨K', _, _, hT'⟩ := hinv.edges_sound i st.dfa.nodes.length c h
        have := hinv.idx_lt _ _ hT'
        omega
      rw [dfaStep_fresh g accept K i st c hne hlk hdup]
      have h2 := core_add_state g accept st (empty_closure g (delta g K c)) hinv
        (lookupState_none hlk) hne
      have h3 := core_add_edge g accept
        { dfa := (st.dfa.add_node ⟨decide (accept ∈ empty_closure g (delta g K c))⟩).2,
          final_dfa_edges := st.final_dfa_edges,
          final_dfa_states := (empty_closure g (delta g K c), st.dfa.nodes.length)
            :: st.final_dfa_states,
          worklist := st.worklist ++ [(empty_closure g (delta g K c), st.dfa.nodes.length)] }
        K i st.dfa.nodes.length c h2 (List.mem_cons_of_mem _ hK) hne
        (List.mem_cons_self _ _) hdup
      refine ⟨h3, fun p hp => List.mem_cons_of_mem _ hp,
        fun t ht => List.mem_cons_of_mem _ ht, ?_, fun p hp => List.mem_append_left _ hp,
        ?_, ?_⟩
      · intro p hp
        rcases List.mem_append.mp hp with hp | hp
        · exact Or.inl hp
        · rcases List.mem_singleton.mp hp with rfl
          exact Or.inr (Nat.le_refl _)
      · rw [add_edge_nodes_length, add_node_nodes_length]
        omega
      · exact fun _ => ⟨st.dfa.nodes.length, List.mem_cons_self _ _, List.mem_cons_self _ _⟩

theorem Complete_mono (g : NfaGraph) (st st' : DfaBuild) (K : List Nat) (i : Nat) (c : Char)
    (hm : ∀ p ∈ st.final_dfa_states, p ∈ st'.final_dfa_states)
    (he : ∀ t ∈ st.final_dfa_edges, t ∈ st'.final_dfa_edges)
    (h : Complete g st K i c) : Complete g st' K i c := by
  intro hne
  obtain ⟨j, h1, h2⟩ := h hne
  exact ⟨j, hm _ h1, he _ h2⟩

/-- The `for c in alphabet` fold of the worklist loop: preserves the
bookkeeping invariant, grows the table and guard set monotonically, adds
only fresh-index worklist entries, and completes the popped `(K, i)` entry
for every character of the alphabet. -/
theorem dfaFold_core (g : NfaGraph) (accept : Nat) (K : List Nat) (i : Nat) :
    ∀ (A : List Char) (st : DfaBuild),
      DfaInvCore g accept st → (K, i) ∈ st.final_dfa_states →
      DfaInvCore g accept (A.foldl (dfaStep g accept K i) st) ∧
      (∀ p ∈ st.final_dfa_states, p ∈ (A.foldl (dfaStep g accept K i) st).final_dfa_states) ∧
      (∀ t ∈ st.final_dfa_edges, t ∈ (A.foldl (dfaStep g accept K i) st).final_dfa_edges) ∧
      (∀ p ∈ (A.foldl (dfaStep g accept K i) st).worklist,
        p ∈ st.worklist ∨ st.dfa.nodes.length ≤ p.2) ∧
      (∀ p ∈ st.worklist, p ∈ (A.foldl (dfaStep g accept K i) st).worklist) ∧
      st.dfa.nodes.length ≤ (A.foldl (dfaStep g accept K i) st).dfa.nodes.length ∧
      (∀ c ∈ A, Complete g (A.foldl (dfaStep g accept K i) st) K i c) := by
  intro A
  induction A with
  | nil =>
    intro st hinv hK
    exact ⟨hinv, fun p hp => hp, fun t ht => ht, fun p hp => Or.inl hp, fun p hp => hp,
      Nat.le_refl _, fun c hc => absurd hc (List.not_mem_nil c)⟩
  | cons c cs ih =>
    intro st hinv hK
    obtain ⟨s1, s2, s3, s4, s5, s6, s7⟩ := dfaStep_core g accept K i st c hinv hK
    obtain ⟨i1, i2, i3, i4, i5, i6, i7⟩ := ih (dfaStep g accept K i st c) s1 (s2 _ hK)
    show DfaInvCore g accept (cs.foldl (dfaStep g accept K i) (dfaStep g accept K i st c)) ∧ _
    refine ⟨i1, fun p hp => i2 p (s2 p hp), fun t ht => i3 t (s3 t ht), ?_,
      fun p hp => i5 p (s5 p hp), Nat.le_trans s6 i6, ?_⟩
    · intro p hp
      rcases i4 p hp with hp' | hge
      · rcases s4 p hp' with hp'' | hge
        · exact Or.inl hp''
        · exact Or.inr hge
      · exact Or.inr (Nat.le_trans s6 hge)
    · intro c' hc'
      rcases List.mem_cons.mp hc' with rfl | hc'
      · exact Complete_mono g _ _ K i c' i2 i3 s7
      · exact i7 c' hc'

theorem closureLoop_result_sub (g : NfaGraph) :
    ∀ fuel stack result, ∀ x ∈ result, x ∈ closureLoop g fuel stack result := by
  intro fuel
  induction fuel with
  | zero =>
    intro stack result x hx
    cases stack with
    | nil => exact hx
    | cons a b => exact hx
  | succ fuel ih =>
    intro stack result x hx
    cases stack with
    | nil => exact hx
    | cons current rest =>
      exact ih _ _ x ((mem_insertSorted current result x).mpr (Or.inr hx))

theorem empty_closure_ne_nil (g : NfaGraph) (s : List Nat) (hs : s ≠ []) :
    empty_closure g s ≠ [] := by
  obtain ⟨y, rest, hrev⟩ : ∃ y rest, s.reverse = y :: rest := by
    cases hr : s.reverse with
    | nil =>
      exfalso
      apply hs
      have := congrArg List.reverse hr
      simpa using this
    | cons y rest => exact ⟨y, rest, rfl⟩
  unfold empty_closure
  rw [hrev]
  show closureLoop g (s.length + g.nodes.length + 1) (y :: rest) [] ≠ []
  intro hnil
  have hy := closureLoop_result_sub g (s.length + g.nodes.length)
    (closurePush g (insertSorted y []) rest (g.outgoingList y)) (insertSorted y []) y
    ((mem_insertSorted y [] y).mpr (Or.inl rfl))
  have hstep : closureLoop g (s.length + g.nodes.length + 1) (y :: rest) [] =
      closureLoop g (s.length + g.nodes.length)
        (closurePush g (insertSorted y []) rest (g.outgoingList y)) (insertSorted y []) := rfl
  rw [hstep] at hnil
  rw [hnil] at hy
  cases hy

theorem dfaLoop_zero (g : NfaGraph) (accept : Nat) (A : List Char) (st : DfaBuild) :
    dfaLoop g accept A 0 st = st := by
  obtain ⟨d, e, m, w⟩ := st
  cases w <;> rfl

theorem dfaLoop_nil_wl (g : NfaGraph) (accept : Nat) (A : List Char) (fuel : Nat)
    (st : DfaBuild) (h : st.worklist = []) : dfaLoop g accept A fuel st = st := by
  obtain ⟨d, e, m, w⟩ := st
  simp only at h
  subst h
  cases fuel <;> rfl

theorem dfaLoop_cons (g : NfaGraph) (accept : Nat) (A : List Char) (fuel : Nat)
    (d : DfaGraph) (e : List (Nat × Nat × Char)) (m : List (List Nat × Nat))
    (K : List Nat) (i : Nat) (rest : List (List Nat × Nat)) :
    dfaLoop g accept A (fuel + 1) ⟨d, e, m, (K, i) :: rest⟩ =
      dfaLoop g accept A fuel (A.foldl (dfaStep g accept K i) ⟨d, e, m, rest⟩) := rfl

/-- The bookkeeping invariant is preserved by the whole worklist loop,
regardless of fuel. -/
theorem dfaLoop_core (g : NfaGraph) (accept : Nat) (A : List Char) :
    ∀ fuel st, DfaInvCore g accept st →
      DfaInvCore g accept (dfaLoop g accept A fuel st) := by
  intro fuel
  induction fuel with
  | zero =>
    intro st hinv
    rw [dfaLoop_zero]
    exact hinv
  | succ fuel ih =>
    intro st hinv
    obtain ⟨d, e, m, w⟩ := st
    cases w with
    | nil =>
      rw [dfaLoop_nil_wl g accept A _ _ rfl]
      exact hinv
    | cons p rest =>
      obtain ⟨K, i⟩ := p
      rw [dfaLoop_cons]
      apply ih
      have hinv' : DfaInvCore g accept ⟨d, e, m, rest⟩ :=
        ⟨hinv.idx_lt, hinv.keys_nodup, hinv.idx_nodup, hinv.acc_flag, hinv.edges_sound,
          hinv.out_pairs_nodup, hinv.out_pairs_iff, hinv.dfa_wf,
          fun p hp => hinv.wl_mem p (List.mem_cons_of_mem _ hp),
          (List.nodup_cons.mp hinv.wl_idx_nodup).2,
          hinv.keys_ne⟩
      have hK : (K, i) ∈ m := hinv.wl_mem _ (List.mem_cons_self _ _)
      exact (dfaFold_core g accept K i A ⟨d, e, m, rest⟩ hinv' hK).1

/-- The initial worklist state of `build_dfa` satisfies the bookkeeping
invariant. -/
theorem build_dfa_init (nfa : NfaGraph) (accept : Nat) (K : List Nat) (hKne : K ≠ []) :
    DfaInvCore nfa accept
      ⟨((Graph.new AutomataState Char).add_node ⟨decide (accept ∈ K)⟩).2, [],
        [(K, 0)], [(K, 0)]⟩ := by
  have hpairs : ∀ i, outPairs ((Graph.new AutomataState Char).add_node
      ⟨decide (accept ∈ K)⟩).2 i = [] := by
    intro i
    cases i with
    | zero => rfl
    | succ n => rfl
  refine ⟨?_, ?_, ?_, ?_, ?_, ?_, ?_, ?_, ?_, ?_, ?_⟩
  · intro K' i' h
    rcases List.mem_singleton.mp h with heq
    injection heq with _ h2
    subst h2
    simp [Graph.new, Graph.add_node]
  · exact List.nodup_singleton _
  · exact List.nodup_singleton _
  · intro K' i' h
    rcases List.mem_singleton.mp h with heq
    injection heq with h1 h2
    subst h1; subst h2
    rfl
  · intro i' j' c' h
    cases h
  · intro i
    rw [hpairs i]
    exact List.nodup_nil
  · intro i c' j'
    rw [hpairs i]
    constructor
    · intro h; cases h
    · intro h; cases h
  · exact WF_add_node _ _ (WF_new AutomataState Char)
  · intro p hp
    exact hp
  · exact List.nodup_singleton _
  · intro K' i' h
    rcases List.mem_singleton.mp h with heq
    injection heq with h1 _
    subst h1
    exact hKne

theorem core_edges_functional (g : NfaGraph) (accept : Nat) (st : DfaBuild)
    (hinv : DfaInvCore g accept st) (i j j' : Nat) (c : Char)
    (h1 : (i, j, c) ∈ st.final_dfa_edges) (h2 : (i, j', c) ∈ st.final_dfa_edges) : j = j' := by
  obtain ⟨K1, hK1, _, hT1⟩ := hinv.edges_sound _ _ _ h1
  obtain ⟨K2, hK2, _, hT2⟩ := hinv.edges_sound _ _ _ h2
  have hk : K1 = K2 := entry_eq_of_idx hinv.idx_nodup hK1 hK2
  subst hk
  exact entry_eq_of_key hinv.keys_nodup hT1 hT2

theorem length_le_one_of_nodup_all_eq {l : List Nat} (hnd : l.Nodup)
    (h : ∀ a ∈ l, ∀ b ∈ l, a = b) : l.length ≤ 1 := by
  cases l with
  | nil => simp
  | cons a t =>
    cases t with
    | nil => simp
    | cons b t2 =>
      exfalso
      have hab : a = b := h a (List.mem_cons_self _ _) b
        (List.mem_cons_of_mem _ (List.mem_cons_self _ _))
      have hnin : a ∉ b :: t2 := (List.nodup_cons.mp hnd).1
      exact hnin (hab ▸ List.mem_cons_self b t2)

/-- Determinism extracted from the bookkeeping invariant: each DFA state has
at most one outgoing edge per character. -/
theorem core_determinism (g : NfaGraph) (accept : Nat) (st : DfaBuild)
    (hinv : DfaInvCore g accept st) (q : Nat) (c : Char) :
    ((st.dfa.outgoingList q).filter
      (fun e => edgeLabelD st.dfa e == c)).length ≤ 1 := by
  have hnd : (st.dfa.outgoingList q).Nodup := outgoingList_nodup _ hinv.dfa_wf q
  refine length_le_one_of_nodup_all_eq (hnd.filter _) ?_
  intro e1 he1 e2 he2
  obtain ⟨hm1, hl1⟩ := List.mem_filter.mp he1
  obtain ⟨hm2, hl2⟩ := List.mem_filter.mp he2
  have hc1 : edgeLabelD st.dfa e1 = c := by simpa using hl1
  have hc2 : edgeLabelD st.dfa e2 = c := by simpa using hl2
  have hp1 : (edgeLabelD st.dfa e1, st.dfa.traverseD e1) ∈ outPairs st.dfa q :=
    List.mem_map_of_mem _ hm1
  have hp2 : (edgeLabelD st.dfa e2, st.dfa.traverseD e2) ∈ outPairs st.dfa q :=
    List.mem_map_of_mem _ hm2
  rw [hc1] at hp1
  rw [hc2] at hp2
  have ht1 := (hinv.out_pairs_iff q c (st.dfa.traverseD e1)).mp hp1
  have ht2 := (hinv.out_pairs_iff q c (st.dfa.traverseD e2)).mp hp2
  have htt : st.dfa.traverseD e1 = st.dfa.traverseD e2 :=
    core_edges_functional g accept st hinv q _ _ c ht1 ht2
  refine List.inj_on_of_nodup_map (hinv.out_pairs_nodup q) hm1 hm2 ?_
  show (edgeLabelD st.dfa e1, st.dfa.traverseD e1) = (edgeLabelD st.dfa e2, st.dfa.traverseD e2)
  rw [hc1, hc2, htt]

/-- C5: in every DFA graph returned by `build_dfa`, every state has at most
one outgoing edge labelled with any given character. -/
theorem build_dfa_deterministic (handle : AutomataComponent) (nfa : NfaGraph)
    (alphabet : List Char) (q : Nat) (c : Char) :
    (((build_dfa handle nfa alphabet).2.outgoingList q).filter
      (fun e => edgeLabelD (build_dfa handle nfa alphabet).2 e == c)).length ≤ 1 := by
  have hinit := build_dfa_init nfa handle.accept_state
    (empty_closure nfa [handle.start_state])
    (empty_closure_ne_nil nfa [handle.start_state] (by simp))
  have hfin := dfaLoop_core nfa handle.accept_state alphabet (2 ^ nfa.nodes.length + 1) _ hinit
  have heq : (build_dfa handle nfa alphabet).2 = (dfaLoop nfa handle.accept_state alphabet
      (2 ^ nfa.nodes.length + 1)
      ⟨((Graph.new AutomataState Char).add_node ⟨decide (handle.accept_state ∈
          empty_closure nfa [handle.start_state])⟩).2, [],
        [(empty_closure nfa [handle.start_state], 0)],
        [(empty_closure nfa [handle.start_state], 0)]⟩).dfa := rfl
  rw [heq]
  exact core_determinism nfa handle.accept_state _ hfin q c

/-! ### Well-formedness of the Thompson construction -/

theorem two_nodes_wf (g : NfaGraph) (hWF : g.WF) :
    (((g.add_node ⟨false⟩).2.add_node ⟨false⟩).2).WF ∧
    (((g.add_node ⟨false⟩).2.add_node ⟨false⟩).2).nodes.length = g.nodes.length + 2 := by
  refine ⟨WF_add_node _ _ (WF_add_node _ _ hWF), ?_⟩
  rw [add_node_nodes_length, add_node_nodes_length]

theorem compile_character_wf (g : NfaGraph) (c : Char) (hWF : g.WF) :
    ((compile_character g c).2).WF ∧
    (compile_character g c).2.nodes.length = g.nodes.length + 2 ∧
    (compile_character g c).1.start_state < (compile_character g c).2.nodes.length ∧
    (compile_character g c).1.accept_state < (compile_character g c).2.nodes.length := by
  have hW2 : (((g.add_node ⟨false⟩).2.add_node ⟨false⟩).2).WF :=
    WF_add_node _ _ (WF_add_node _ _ hWF)
  unfold compile_character
  simp only [add_node_fst, add_node_nodes_length, add_edge_nodes_length]
  refine ⟨?_, by first | omega | trivial, by first | omega | trivial,
    by first | omega | trivial⟩
  exact WF_add_edge _ g.nodes.length (g.nodes.length + 1) (some c) hW2
    (by simp only [add_node_nodes_length]; omega)
    (by simp only [add_node_nodes_length]; omega)

theorem compile_optional_wf (g : NfaGraph) (top : AutomataComponent) (hWF : g.WF)
    (h1 : top.start_state < g.nodes.length) (h2 : top.accept_state < g.nodes.length) :
    ((compile_optional g top).2).WF ∧
    (compile_optional g top).2.nodes.length = g.nodes.length + 2 ∧
    (compile_optional g top).1.start_state < (compile_optional g top).2.nodes.length ∧
    (compile_optional g top).1.accept_state < (compile_optional g top).2.nodes.length := by
  have hW2 : (((g.add_node ⟨false⟩).2.add_node ⟨false⟩).2).WF :=
    WF_add_node _ _ (WF_add_node _ _ hWF)
  have hW3 := WF_add_edge _ g.nodes.length top.start_state none hW2
    (by simp only [add_node_nodes_length]; omega)
    (by simp only [add_node_nodes_length]; omega)
  have hW4 := WF_add_edge _ top.accept_state (g.nodes.length + 1) none hW3
    (by simp only [add_edge_nodes_length, add_node_nodes_length]; omega)
    (by simp only [add_edge_nodes_length, add_node_nodes_length]; omega)
  unfold compile_optional
  simp only [add_node_fst, add_node_nodes_length, add_edge_nodes_length]
  refine ⟨?_, by first | omega | trivial, by first | omega | trivial,
    by first | omega | trivial⟩
  exact WF_add_edge _ g.nodes.length (g.nodes.length + 1) none hW4
    (by simp only [add_edge_nodes_length, add_node_nodes_length]; omega)
    (by simp only [add_edge_nodes_length, add_node_nodes_length]; omega)

theorem compile_plus_wf (g : NfaGraph) (top : AutomataComponent) (hWF : g.WF)
    (h1 : top.start_state < g.nodes.length) (h2 : top.accept_state < g.nodes.length) :
    ((compile_plus g top).2).WF ∧
    (compile_plus g top).2.nodes.length = g.nodes.length + 2 ∧
    (compile_plus g top).1.start_state < (compile_plus g top).2.nodes.length ∧
    (compile_plus g top).1.accept_state < (compile_plus g top).2.nodes.length := by
  have hW2 : (((g.add_node ⟨false⟩).2.add_node ⟨false⟩).2).WF :=
    WF_add_node _ _ (WF_add_node _ _ hWF)
  have hW3 := WF_add_edge _ g.nodes.length top.start_state none hW2
    (by simp only [add_node_nodes_length]; omega)
    (by simp only [add_node_nodes_length]; omega)
  have hW4 := WF_add_edge _ top.accept_state (g.nodes.length + 1) none hW3
    (by simp only [add_edge_nodes_length, add_node_nodes_length]; omega)
    (by simp only [add_edge_nodes_length, add_node_nodes_length]; omega)
  unfold compile_plus
  simp only [add_node_fst, add_node_nodes_length, add_edge_nodes_length]
  refine ⟨?_, by first | omega | trivial, by first | omega | trivial,
    by first | omega | trivial⟩
  exact WF_add_edge _ top.accept_state top.start_state none hW4
    (by simp only [add_edge_nodes_length, add_node_nodes_length]; omega)
    (by simp only [add_edge_nodes_length, add_node_nodes_length]; omega)

theorem compile_star_wf (g : NfaGraph) (top : AutomataComponent) (hWF : g.WF)
    (h1 : top.start_state < g.nodes.length) (h2 : top.accept_state < g.nodes.length) :
    ((compile_star g top).2).WF ∧
    (compile_star g top).2.nodes.length = g.nodes.length + 2 ∧
    (compile_star g top).1.start_state < (compile_star g top).2.nodes.length ∧
    (compile_star g top).1.accept_state < (compile_star g top).2.nodes.length := by
  have hW2 : (((g.add_node ⟨false⟩).2.add_node ⟨false⟩).2).WF :=
    WF_add_node _ _ (WF_add_node _ _ hWF)
  have hW3 := WF_add_edge _ g.nodes.length top.start_state none hW2
    (by simp only [add_node_nodes_length]; omega)
    (by simp only [add_node_nodes_length]; omega)
  have hW4 := WF_add_edge _ top.accept_state (g.nodes.length + 1) none hW3
    (by simp only [add_edge_nodes_length, add_node_nodes_length]; omega)
    (by simp only [add_edge_nodes_length, add_node_nodes_length]; omega)
  have hW5 := WF_add_edge _ top.accept_state top.start_state none hW4
    (by simp only [add_edge_nodes_length, add_node_nodes_length]; omega)
    (by simp only [add_edge_nodes_length, add_node_nodes_length]; omega)
  unfold compile_star
  simp only [add_node_fst, add_node_nodes_length, add_edge_nodes_length]
  refine ⟨?_, by first | omega | trivial, by first | omega | trivial,
    by first | omega | trivial⟩
  exact WF_add_edge _ g.nodes.length (g.nodes.length + 1) none hW5
    (by simp only [add_edge_nodes_length, add_node_nodes_length]; omega)
    (by simp only [add_edge_nodes_length, add_node_nodes_length]; omega)

theorem compile_concat_wf (g : NfaGraph) (left right : AutomataComponent) (hWF : g.WF)
    (hl1 : left.start_state < g.nodes.length) (hl2 : left.accept_state < g.nodes.length)
    (hr1 : right.start_state < g.nodes.length) (hr2 : right.accept_state < g.nodes.length) :
    ((compile_concat g left right).2).WF ∧
    (compile_concat g left right).2.nodes.length = g.nodes.length ∧
    (compile_concat g left right).1.start_state < (compile_concat g left right).2.nodes.length ∧
    (compile_concat g left right).1.accept_state < (compile_concat g left right).2.nodes.length := by
  unfold compile_concat
  simp only [add_edge_nodes_length]
  exact ⟨WF_add_edge _ _ _ _ hWF hl2 hr1, trivial, hl1, hr2⟩

theorem compile_alternation_wf (g : NfaGraph) (left right : AutomataComponent) (hWF : g.WF)
    (hl1 : left.start_state < g.nodes.length) (hl2 : left.accept_state < g.nodes.length)
    (hr1 : right.start_state < g.nodes.length) (hr2 : right.accept_state < g.nodes.length) :
    ((compile_alternation g left right).2).WF ∧
    (compile_alternation g left right).2.nodes.length = g.nodes.length + 2 ∧
    (compile_alternation g left right).1.start_state <
      (compile_alternation g left right).2.nodes.length ∧
    (compile_alternation g left right).1.accept_state <
      (compile_alternation g left right).2.nodes.length := by
  have hW2 : (((g.add_node ⟨false⟩).2.add_node ⟨false⟩).2).WF :=
    WF_add_node _ _ (WF_add_node _ _ hWF)
  have hW3 := WF_add_edge _ g.nodes.length left.start_state none hW2
    (by simp only [add_node_nodes_length]; omega)
    (by simp only [add_node_nodes_length]; omega)
  have hW4 := WF_add_edge _ g.nodes.length right.start_state none hW3
    (by simp only [add_edge_nodes_length, add_node_nodes_length]; omega)
    (by simp only [add_edge_nodes_length, add_node_nodes_length]; omega)
  have hW5 := WF_add_edge _ left.accept_state (g.nodes.length + 1) none hW4
    (by simp only [add_edge_nodes_length, add_node_nodes_length]; omega)
    (by simp only [add_edge_nodes_length, add_node_nodes_length]; omega)
  unfold compile_alternation
  simp only [add_node_fst, add_node_nodes_length, add_edge_nodes_length]
  refine ⟨?_, by first | omega | trivial, by first | omega | trivial,
    by first | omega | trivial⟩
  exact WF_add_edge _ right.accept_state (g.nodes.length + 1) none hW5
    (by simp only [add_edge_nodes_length, add_node_nodes_length]; omega)
    (by simp only [add_edge_nodes_length, add_node_nodes_length]; omega)

theorem compile_wf (g : NfaGraph) (stack : List AutomataComponent) (sym : RegexSymbol)
    (hWF : g.WF)
    (hstack : ∀ comp ∈ stack,
      comp.start_state < g.nodes.length ∧ comp.accept_state < g.nodes.length) :
    ∀ comp' g' stack', compile g stack sym = some (comp', g', stack') →
      g'.WF ∧ g.nodes.length ≤ g'.nodes.length ∧
      comp'.start_state < g'.nodes.length ∧ comp'.accept_state < g'.nodes.length ∧
      (∀ comp ∈ stack',
        comp.start_state < g'.nodes.length ∧ comp.accept_state < g'.nodes.length) := by
  intro comp' g' stack' h
  cases sym with
  | Optional =>
    cases stack with
    | nil => cases h
    | cons top rest =>
      simp only [compile] at h
      injection h with h
      injection h with h1 h2
      injection h2 with h2 h3
      subst h1; subst h2; subst h3
      obtain ⟨htop1, htop2⟩ := hstack top (List.mem_cons_self _ _)
      obtain ⟨w1, w2, w3, w4⟩ := compile_optional_wf g top hWF htop1 htop2
      refine ⟨w1, by omega, w3, w4, ?_⟩
      intro comp hc
      obtain ⟨hc1, hc2⟩ := hstack comp (List.mem_cons_of_mem _ hc)
      omega
  | Plus =>
    cases stack with
    | nil => cases h
    | cons top rest =>
      simp only [compile] at h
      injection h with h
      injection h with h1 h2
      injection h2 with h2 h3
      subst h1; subst h2; subst h3
      obtain ⟨htop1, htop2⟩ := hstack top (List.mem_cons_self _ _)
      obtain ⟨w1, w2, w3, w4⟩ := compile_plus_wf g top hWF htop1 htop2
      refine ⟨w1, by omega, w3, w4, ?_⟩
      intro comp hc
      obtain ⟨hc1, hc2⟩ := hstack comp (List.mem_cons_of_mem _ hc)
      omega
  | Star =>
    cases stack with
    | nil => cases h
    | cons top rest =>
      simp only [compile] at h
      injection h with h
      injection h with h1 h2
      injection h2 with h2 h3
      subst h1; subst h2; subst h3
      obtain ⟨htop1, htop2⟩ := hstack top (List.mem_cons_self _ _)
      obtain ⟨w1, w2, w3, w4⟩ := compile_star_wf g top hWF htop1 htop2
      refine ⟨w1, by omega, w3, w4, ?_⟩
      intro comp hc
      obtain ⟨hc1, hc2⟩ := hstack comp (List.mem_cons_of_mem _ hc)
      omega
  | Concat =>
    match stack, h with
    | right :: left :: rest, h =>
      simp only [compile] at h
      injection h with h
      injection h with h1 h2
      injection h2 with h2 h3
      subst h1; subst h2; subst h3
      obtain ⟨hr1, hr2⟩ := hstack right (List.mem_cons_self _ _)
      obtain ⟨hl1, hl2⟩ := hstack left (List.mem_cons_of_mem _ (List.mem_cons_self _ _))
      obtain ⟨w1, w2, w3, w4⟩ := compile_concat_wf g left right hWF hl1 hl2 hr1 hr2
      refine ⟨w1, by omega, w3, w4, ?_⟩
      intro comp hc
      obtain ⟨hc1, hc2⟩ := hstack comp
        (List.mem_cons_of_mem _ (List.mem_cons_of_mem _ hc))
      omega
  | Alternation =>
    match stack, h with
    | right :: left :: rest, h =>
      simp only [compile] at h
      injection h with h
      injection h with h1 h2
      injection h2 with h2 h3
      subst h1; subst h2; subst h3
      obtain ⟨hr1, hr2⟩ := hstack right (List.mem_cons_self _ _)
      obtain ⟨hl1, hl2⟩ := hstack left (List.mem_cons_of_mem _ (List.mem_cons_self _ _))
      obtain ⟨w1, w2, w3, w4⟩ := compile_alternation_wf g left right hWF hl1 hl2 hr1 hr2
      refine ⟨w1, by omega, w3, w4, ?_⟩
      intro comp hc
      obtain ⟨hc1, hc2⟩ := hstack comp
        (List.mem_cons_of_mem _ (List.mem_cons_of_mem _ hc))
      omega
  | Char c =>
    simp only [compile] at h
    injection h with h
    injection h with h1 h2
    injection h2 with h2 h3
    subst h1; subst h2; subst h3
    obtain ⟨w1, w2, w3, w4⟩ := compile_character_wf g c hWF
    refine ⟨w1, by omega, w3, w4, ?_⟩
    intro comp hc
    obtain ⟨hc1, hc2⟩ := hstack comp hc
    omega
  | Open => cases h
  | Close => cases h

theorem buildLoop_wf :
    ∀ (px : List RegexSymbol) (g : NfaGraph) (stack : List AutomataComponent),
      g.WF →
      (∀ comp ∈ stack,
        comp.start_state < g.nodes.length ∧ comp.accept_state < g.nodes.length) →
      ∀ g' stack', buildLoop px g stack = some (g', stack') →
        g'.WF ∧
        (∀ comp ∈ stack',
          comp.start_state < g'.nodes.length ∧ comp.accept_state < g'.nodes.length) := by
  intro px
  induction px with
  | nil =>
    intro g stack hWF hstack g' stack' h
    injection h with h
    injection h with h1 h2
    subst h1; subst h2
    exact ⟨hWF, hstack⟩
  | cons sym rest ih =>
    intro g stack hWF hstack g' stack' h
    simp only [buildLoop] at h
    cases hc : compile g stack sym with
    | none => rw [hc] at h; cases h
    | some res =>
      obtain ⟨comp'', g'', stack''⟩ := res
      rw [hc] at h
      obtain ⟨w1, _, w3, w4, w5⟩ := compile_wf g stack sym hWF hstack comp'' g'' stack'' hc
      refine ih g'' (comp'' :: stack'') w1 ?_ g' stack' h
      intro comp hcm
      rcases List.mem_cons.mp hcm with rfl | hcm
      · exact ⟨w3, w4⟩
      · exact w5 comp hcm

theorem markAccepting_wf (g : NfaGraph) (i : Nat) (h : g.WF) :
    (markAccepting g i).WF ∧ (markAccepting g i).nodes.length = g.nodes.length := by
  unfold markAccepting
  cases hnd : g.nodes[i]? with
  | none => exact ⟨h, rfl⟩
  | some nd =>
    refine ⟨⟨?_, ?_⟩, by simp⟩
    · intro nd' hnd' e he
      simp only at hnd'
      rcases List.mem_or_eq_of_mem_set hnd' with hmem | rfl
      · exact h.1 nd' hmem e he
      · exact h.1 nd (List.getElem?_mem hnd) e he
    · intro j hj ed hed
      simp only [List.length_set] at hj ⊢
      exact h.2 j hj ed hed

/-- The NFA returned by `build_nfa` is well-formed and its start/accept
states are valid node indices. -/
theorem build_nfa_wf (px : List RegexSymbol) (handle : AutomataComponent) (nfa : NfaGraph)
    (h : build_nfa px = some (handle, nfa)) :
    nfa.WF ∧ handle.start_state < nfa.nodes.length ∧
      handle.accept_state < nfa.nodes.length := by
  unfold build_nfa at h
  cases hb : buildLoop px (Graph.new AutomataState AutomataLabel) [] with
  | none => rw [hb] at h; cases h
  | some res =>
    obtain ⟨g0, st⟩ := res
    rw [hb] at h
    cases st with
    | nil => cases h
    | cons result rest =>
      simp only at h
      injection h with h
      injection h with h1 h2
      subst h1; subst h2
      obtain ⟨w1, w2⟩ := buildLoop_wf px (Graph.new AutomataState AutomataLabel) []
        (WF_new _ _) (by intro comp hc; cases hc) g0 (result :: rest) hb
      obtain ⟨hm1, hm2⟩ := markAccepting_wf g0 result.accept_state w1
      obtain ⟨hb1, hb2⟩ := w2 result (List.mem_cons_self _ _)
      rw [hm2]
      exact ⟨hm1, hb1, hb2⟩

/-! ### NFA paths versus the subset simulation -/

theorem sorted_nodup {l : List Nat} (h : l.Sorted (· < ·)) : l.Nodup :=
  h.imp (fun hl => Nat.ne_of_lt hl)

theorem NfaPath_nil_iff (g : NfaGraph) (u v : Nat) :
    NfaPath g u [] v ↔ EpsReach g [u] v := by
  constructor
  · intro h
    have haux : ∀ s v', NfaPath g u s v' → s = [] → EpsReach g [u] v' := by
      intro s v' hp
      induction hp with
      | refl => intro _; exact EpsReach.base (List.mem_singleton.mpr rfl)
      | eps _ hstep ih => intro hs; exact EpsReach.step (ih hs) hstep
      | char _ _ _ => intro hs; simp at hs
    exact haux [] v h rfl
  · intro h
    induction h with
    | base hb =>
      rcases List.mem_singleton.mp hb with rfl
      exact NfaPath.refl
    | step _ hstep ih => exact NfaPath.eps ih hstep

theorem NfaPath_snoc_iff (g : NfaGraph) (u : Nat) (s : List Char) (c : Char) (v : Nat) :
    NfaPath g u (s ++ [c]) v ↔
      ∃ z, (∃ y, NfaPath g u s y ∧ CharStep g c y z) ∧ EpsReach g [z] v := by
  constructor
  · intro h
    have haux : ∀ t v', NfaPath g u t v' → t = s ++ [c] →
        ∃ z, (∃ y, NfaPath g u s y ∧ CharStep g c y z) ∧ EpsReach g [z] v' := by
      intro t v' hp
      induction hp with
      | refl =>
        intro ht
        exact absurd ht.symm (by simp)
      | eps _ hstep ih =>
        intro ht
        obtain ⟨z, hy, hr⟩ := ih ht
        exact ⟨z, hy, EpsReach.step hr hstep⟩
      | char hp hstep ih =>
        intro ht
        rename_i s' y' c' z'
        have hlen : s'.length = s.length := by
          have := congrArg List.length ht
          simp at this
          omega
        obtain ⟨hs', hc'⟩ := List.append_inj ht hlen
        have hc'' : c' = c := by
          injection hc' with h1 _
        subst hs'; subst hc''
        exact ⟨z', ⟨y', hp, hstep⟩, EpsReach.base (List.mem_singleton.mpr rfl)⟩
    exact haux _ v h rfl
  · rintro ⟨z, ⟨y, hpath, hstep⟩, hreach⟩
    have hz : NfaPath g u (s ++ [c]) z := NfaPath.char hpath hstep
    clear hpath hstep
    induction hreach with
    | base hb =>
      rcases List.mem_singleton.mp hb with rfl
      exact hz
    | step _ hstep' ih => exact NfaPath.eps ih hstep'

theorem EpsReach_set_iff (g : NfaGraph) (S : List Nat) (x : Nat) :
    EpsReach g S x ↔ ∃ z ∈ S, EpsReach g [z] x := by
  constructor
  · intro h
    induction h with
    | base hb => exact ⟨_, hb, EpsReach.base (List.mem_singleton.mpr rfl)⟩
    | step _ hstep ih =>
      obtain ⟨z, hz, hr⟩ := ih
      exact ⟨z, hz, EpsReach.step hr hstep⟩
  · rintro ⟨z, hz, hr⟩
    refine EpsReach_mono_base g S [z] ?_ x hr
    intro b hb
    rcases List.mem_singleton.mp hb with rfl
    exact EpsReach.base hz

theorem mem_deltaInner (g : NfaGraph) (c : Char) (edges : List Nat) :
    ∀ init y,
      y ∈ edges.foldl (fun result e =>
          match edgeLabelN g e with
          | some sc => if sc = c then insertSorted (g.traverseD e) result else result
          | none => result) init ↔
        y ∈ init ∨ ∃ e ∈ edges, edgeLabelN g e = some c ∧ g.traverseD e = y := by
  induction edges with
  | nil => intro init y; simp
  | cons e es ih =>
    intro init y
    rw [List.foldl_cons]
    cases hl : edgeLabelN g e with
    | none =>
      simp only [hl]
      rw [ih]
      constructor
      · rintro (hy | ⟨e', he', hl', ht'⟩)
        · exact Or.inl hy
        · exact Or.inr ⟨e', List.mem_cons_of_mem _ he', hl', ht'⟩
      · rintro (hy | ⟨e', he', hl', ht'⟩)
        · exact Or.inl hy
        · rcases List.mem_cons.mp he' with rfl | he'
          · rw [hl'] at hl; cases hl
          · exact Or.inr ⟨e', he', hl', ht'⟩
    | some sc =>
      simp only [hl]
      by_cases hsc : sc = c
      · rw [if_pos hsc]
        rw [ih]
        constructor
        · rintro (hy | ⟨e', he', hl', ht'⟩)
          · rcases (mem_insertSorted _ _ _).mp hy with rfl | hy
            · exact Or.inr ⟨e, List.mem_cons_self _ _, by rw [hl, hsc], rfl⟩
            · exact Or.inl hy
          · exact Or.inr ⟨e', List.mem_cons_of_mem _ he', hl', ht'⟩
        · rintro (hy | ⟨e', he', hl', ht'⟩)
          · exact Or.inl ((mem_insertSorted _ _ _).mpr (Or.inr hy))
          · rcases List.mem_cons.mp he' with rfl | he'
            · exact Or.inl ((mem_insertSorted _ _ _).mpr (Or.inl ht'.symm))
            · exact Or.inr ⟨e', he', hl', ht'⟩
      · rw [if_neg hsc]
        rw [ih]
        constructor
        · rintro (hy | ⟨e', he', hl', ht'⟩)
          · exact Or.inl hy
          · exact Or.inr ⟨e', List.mem_cons_of_mem _ he', hl', ht'⟩
        · rintro (hy | ⟨e', he', hl', ht'⟩)
          · exact Or.inl hy
          · rcases List.mem_cons.mp he' with rfl | he'
            · rw [hl'] at hl
              injection hl with hl
              exact absurd hl.symm hsc
            · exact Or.inr ⟨e', he', hl', ht'⟩

theorem mem_delta (g : NfaGraph) (K : List Nat) (c : Char) :
    ∀ y, y ∈ delta g K c ↔ ∃ s ∈ K, CharStep g c s y := by
  have haux : ∀ init y,
      y ∈ K.foldl (fun result state =>
          (g.outgoingList state).foldl (fun result e =>
            match edgeLabelN g e with
            | some sc => if sc = c then insertSorted (g.traverseD e) result else result
            | none => result) result) init ↔
        y ∈ init ∨ ∃ s ∈ K, CharStep g c s y := by
    induction K with
    | nil => intro init y; simp
    | cons k ks ih =>
      intro init y
      rw [List.foldl_cons, ih, mem_deltaInner]
      unfold CharStep
      constructor
      · rintro ((hy | hy) | ⟨s', hs', hy⟩)
        · exact Or.inl hy
        · exact Or.inr ⟨k, List.mem_cons_self _ _, hy⟩
        · exact Or.inr ⟨s', List.mem_cons_of_mem _ hs', hy⟩
      · rintro (hy | ⟨s', hs', hy⟩)
        · exact Or.inl (Or.inl hy)
        · rcases List.mem_cons.mp hs' with rfl | hs'
          · exact Or.inl (Or.inr hy)
          · exact Or.inr ⟨s', hs', hy⟩
  intro y
  rw [show delta g K c = K.foldl (fun result state =>
      (g.outgoingList state).foldl (fun result e =>
        match edgeLabelN g e with
        | some sc => if sc = c then insertSorted (g.traverseD e) result else result
        | none => result) result) [] from rfl, haux]
  simp

theorem deltaInner_sorted (g : NfaGraph) (c : Char) (edges : List Nat) :
    ∀ init, init.Sorted (· < ·) →
      (edges.foldl (fun result e =>
          match edgeLabelN g e with
          | some sc => if sc = c then insertSorted (g.traverseD e) result else result
          | none => result) init).Sorted (· < ·) := by
  induction edges with
  | nil => intro init h; exact h
  | cons e es ih =>
    intro init h
    rw [List.foldl_cons]
    cases hl : edgeLabelN g e with
    | none => simp only [hl]; exact ih init h
    | some sc =>
      simp only [hl]
      by_cases hsc : sc = c
      · rw [if_pos hsc]
        exact ih _ (insertSorted_sorted _ _ h)
      · rw [if_neg hsc]
        exact ih init h

theorem delta_sorted (g : NfaGraph) (K : List Nat) (c : Char) :
    (delta g K c).Sorted (· < ·) := by
  have haux : ∀ init, init.Sorted (· < ·) →
      (K.foldl (fun result state =>
          (g.outgoingList state).foldl (fun result e =>
            match edgeLabelN g e with
            | some sc => if sc = c then insertSorted (g.traverseD e) result else result
            | none => result) result) init).Sorted (· < ·) := by
    induction K with
    | nil => intro init h; exact h
    | cons k ks ih =>
      intro init h
      rw [List.foldl_cons]
      exact ih _ (deltaInner_sorted g c _ init h)
  exact haux [] (by simp)

theorem delta_range (g : NfaGraph) (hWF : g.WF) (K : List Nat) (c : Char) :
    ∀ y ∈ delta g K c, y < g.nodes.length := by
  intro y hy
  obtain ⟨s, _, e, he, _, ht⟩ := (mem_delta g K c y).mp hy
  rw [← ht]
  exact traverseD_lt g hWF e (outgoingList_lt_edges g hWF s e he)

/-- Membership in the subset-simulation iterate coincides with the
existence of an ε-interleaved path spelling the consumed prefix. -/
theorem mem_subsetIter_iff (g : NfaGraph) (hWF : g.WF) (start : Nat)
    (hstart : start < g.nodes.length) (s : List Char) :
    ∀ x, x ∈ subsetIter g start s ↔ NfaPath g start s x := by
  induction s using List.reverseRecOn with
  | nil =>
    intro x
    obtain ⟨e1, e2, e3, e4, e5⟩ := empty_closure_spec g hWF [start] (List.nodup_singleton _)
      (by
        intro y hy
        rcases List.mem_singleton.mp hy with rfl
        exact hstart)
    rw [NfaPath_nil_iff]
    exact ⟨fun hx => e4 x hx, fun hr => e5 x hr⟩
  | append_singleton s c ih =>
    intro x
    have hiter : subsetIter g start (s ++ [c]) =
        empty_closure g (delta g (subsetIter g start s) c) := by
      unfold subsetIter
      rw [List.foldl_append]
      rfl
    rw [hiter, NfaPath_snoc_iff]
    obtain ⟨e1, e2, e3, e4, e5⟩ := empty_closure_spec g hWF (delta g (subsetIter g start s) c)
      (sorted_nodup (delta_sorted g _ c)) (delta_range g hWF _ c)
    constructor
    · intro hx
      obtain ⟨z, hz, hr⟩ := (EpsReach_set_iff g _ x).mp (e4 x hx)
      obtain ⟨y, hy, hcs⟩ := (mem_delta g _ c z).mp hz
      exact ⟨z, ⟨y, (ih y).mp hy, hcs⟩, hr⟩
    · rintro ⟨z, ⟨y, hpath, hcs⟩, hr⟩
      exact e5 x ((EpsReach_set_iff g _ x).mpr
        ⟨z, (mem_delta g _ c z).mpr ⟨y, (ih y).mpr hpath, hcs⟩, hr⟩)

theorem subsetIter_range (g : NfaGraph) (hWF : g.WF) (start : Nat)
    (hstart : start < g.nodes.length) (s : List Char) :
    ∀ x ∈ subsetIter g start s, x < g.nodes.length := by
  induction s using List.reverseRecOn with
  | nil =>
    exact (empty_closure_spec g hWF [start] (List.nodup_singleton _)
      (by
        intro y hy
        rcases List.mem_singleton.mp hy with rfl
        exact hstart)).2.2.1
  | append_singleton s c ih =>
    have hiter : subsetIter g start (s ++ [c]) =
        empty_closure g (delta g (subsetIter g start s) c) := by
      unfold subsetIter
      rw [List.foldl_append]
      rfl
    rw [hiter]
    exact (empty_closure_spec g hWF (delta g (subsetIter g start s) c)
      (sorted_nodup (delta_sorted g _ c)) (delta_range g hWF _ c)).2.2.1

/-! ### The rich invariant: key shape, state count, and loop termination -/

theorem delta_empty (g : NfaGraph) (c : Char) : delta g [] c = [] := rfl

theorem empty_closure_of_empty (g : NfaGraph) : empty_closure g [] = [] := by
  unfold empty_closure
  exact closureLoop_nil g _ _

theorem dfaStep_fresh_dup (g : NfaGraph) (accept : Nat) (K : List Nat) (i : Nat)
    (st : DfaBuild) (c : Char)
    (hne : empty_closure g (delta g K c) ≠ [])
    (hlk : lookupState st.final_dfa_states (empty_closure g (delta g K c)) = none)
    (hdup : (i, st.dfa.nodes.length, c) ∈ st.final_dfa_edges) :
    dfaStep g accept K i st c =
      { dfa := (st.dfa.add_node ⟨decide (accept ∈ empty_closure g (delta g K c))⟩).2,
        final_dfa_edges := st.final_dfa_edges,
        final_dfa_states := (empty_closure g (delta g K c), st.dfa.nodes.length)
          :: st.final_dfa_states,
        worklist := st.worklist ++ [(empty_closure g (delta g K c), st.dfa.nodes.length)] } := by
  unfold dfaStep
  rw [if_neg hne, hlk]
  simp only
  rw [add_node_fst, if_pos hdup]

/-- Invariant-free bookkeeping facts about one `dfaStep`: the table and the
worklist grow monotonically, every new table entry is an `ε`-closure of a
move and sits on the worklist, and table growth equals worklist growth. -/
theorem dfaStep_raw (g : NfaGraph) (accept : Nat) (K : List Nat) (i : Nat)
    (st : DfaBuild) (c : Char) :
    (∀ p ∈ st.final_dfa_states, p ∈ (dfaStep g accept K i st c).final_dfa_states) ∧
    (∀ p ∈ st.worklist, p ∈ (dfaStep g accept K i st c).worklist) ∧
    (∀ p ∈ (dfaStep g accept K i st c).final_dfa_states,
      p ∈ st.final_dfa_states ∨
        (p ∈ (dfaStep g accept K i st c).worklist ∧
          p.1 = empty_closure g (delta g K c))) ∧
    (dfaStep g accept K i st c).worklist.length + st.final_dfa_states.length =
      st.worklist.length + (dfaStep g accept K i st c).final_dfa_states.length := by
  by_cases hne : empty_closure g (delta g K c) = []
  · rw [dfaStep_nil g accept K i st c hne]
    exact ⟨fun p hp => hp, fun p hp => hp, fun p hp => Or.inl hp, rfl⟩
  · cases hlk : lookupState st.final_dfa_states (empty_closure g (delta g K c)) with
    | some j =>
      by_cases hdup : (i, j, c) ∈ st.final_dfa_edges
      · rw [dfaStep_found_dup g accept K i st c j hne hlk hdup]
        exact ⟨fun p hp => hp, fun p hp => hp, fun p hp => Or.inl hp, rfl⟩
      · rw [dfaStep_found_new g accept K i st c j hne hlk hdup]
        exact ⟨fun p hp => hp, fun p hp => hp, fun p hp => Or.inl hp, rfl⟩
    | none =>
      by_cases hdup : (i, st.dfa.nodes.length, c) ∈ st.final_dfa_edges
      · rw [dfaStep_fresh_dup g accept K i st c hne hlk hdup]
        refine ⟨fun p hp => List.mem_cons_of_mem _ hp,
          fun p hp => List.mem_append_left _ hp, ?_, ?_⟩
        · intro p hp
          rcases List.mem_cons.mp hp with rfl | hp
          · exact Or.inr ⟨List.mem_append_right _ (List.mem_singleton.mpr rfl), rfl⟩
          · exact Or.inl hp
        · simp only [List.length_append, List.length_cons, List.length_nil]
          omega
      · rw [dfaStep_fresh g accept K i st c hne hlk hdup]
        refine ⟨fun p hp => List.mem_cons_of_mem _ hp,
          fun p hp => List.mem_append_left _ hp, ?_, ?_⟩
        · intro p hp
          rcases List.mem_cons.mp hp with rfl | hp
          · exact Or.inr ⟨List.mem_append_right _ (List.mem_singleton.mpr rfl), rfl⟩
          · exact Or.inl hp
        · simp only [List.length_append, List.length_cons, List.length_nil]
          omega

/-- The invariant-free facts of `dfaStep_raw`, composed over the whole
alphabet fold. -/
theorem dfaFold_raw (g : NfaGraph) (accept : Nat) (K : List Nat) (i : Nat) :
    ∀ (A : List Char) (st : DfaBuild),
      (∀ p ∈ st.final_dfa_states, p ∈ (A.foldl (dfaStep g accept K i) st).final_dfa_states) ∧
      (∀ p ∈ st.worklist, p ∈ (A.foldl (dfaStep g accept K i) st).worklist) ∧
      (∀ p ∈ (A.foldl (dfaStep g accept K i) st).final_dfa_states,
        p ∈ st.final_dfa_states ∨
          (p ∈ (A.foldl (dfaStep g accept K i) st).worklist ∧
            ∃ S c0, p.1 = empty_closure g (delta g S c0))) ∧
      (A.foldl (dfaStep g accept K i) st).worklist.length + st.final_dfa_states.length =
        st.worklist.length + (A.foldl (dfaStep g accept K i) st).final_dfa_states.length := by
  intro A
  induction A with
  | nil =>
    intro st
    exact ⟨fun p hp => hp, fun p hp => hp, fun p hp => Or.inl hp, rfl⟩
  | cons c cs ih =>
    intro st
    obtain ⟨s1, s2, s3, s4⟩ := dfaStep_raw g accept K i st c
    obtain ⟨i1, i2, i3, i4⟩ := ih (dfaStep g accept K i st c)
    simp only [List.foldl_cons]
    refine ⟨fun p hp => i1 p (s1 p hp), fun p hp => i2 p (s2 p hp), ?_, by omega⟩
    intro p hp
    rcases i3 p hp with hp' | ⟨hw, hk⟩
    · rcases s3 p hp' with hp'' | ⟨hw', hk'⟩
      · exact Or.inl hp''
      · exact Or.inr ⟨i2 p hw', ⟨K, c, hk'⟩⟩
    · exact Or.inr ⟨hw, hk⟩

/-- There are at most `2 ^ n` table entries: the keys are distinct sorted
subsets of the NFA's node range, so they inject into the powerset of
`range n`. -/
theorem card_states_le (g : NfaGraph) (accept : Nat) (A : List Char) (st : DfaBuild)
    (hrich : DfaInvRich g accept A st) :
    st.final_dfa_states.length ≤ 2 ^ g.nodes.length := by
  have hlnd : (st.final_dfa_states.map Prod.fst).Nodup := hrich.core.keys_nodup
  haveI : IsAntisymm Nat (· < ·) := ⟨fun a b h1 h2 => absurd h2 (Nat.lt_asymm h1)⟩
  have hinj : ∀ x ∈ st.final_dfa_states.map Prod.fst,
      ∀ y ∈ st.final_dfa_states.map Prod.fst, x.toFinset = y.toFinset → x = y := by
    intro x hx y hy hxy
    obtain ⟨⟨Kx, ix⟩, hmx, hex⟩ := List.mem_map.mp hx
    obtain ⟨⟨Ky, iy⟩, hmy, hey⟩ := List.mem_map.mp hy
    have hsx : x.Sorted (· < ·) := by
      have := hrich.keys_sorted Kx ix hmx
      rw [show Kx = x from hex] at this
      exact this
    have hsy : y.Sorted (· < ·) := by
      have := hrich.keys_sorted Ky iy hmy
      rw [show Ky = y from hey] at this
      exact this
    refine List.eq_of_perm_of_sorted
      ((List.perm_ext_iff_of_nodup (sorted_nodup hsx) (sorted_nodup hsy)).mpr ?_) hsx hsy
    intro a
    rw [← List.mem_toFinset, ← List.mem_toFinset, hxy]
  have hfnd : ((st.final_dfa_states.map Prod.fst).map List.toFinset).Nodup :=
    hlnd.map_on hinj
  have hsub : ((st.final_dfa_states.map Prod.fst).map List.toFinset).toFinset ⊆
      Finset.powerset (Finset.range g.nodes.length) := by
    intro F hF
    rw [List.mem_toFinset] at hF
    obtain ⟨Kl, hKl, hKF⟩ := List.mem_map.mp hF
    obtain ⟨⟨Kx, ix⟩, hmx, hex⟩ := List.mem_map.mp hKl
    rw [Finset.mem_powerset, ← hKF]
    intro a ha
    rw [List.mem_toFinset] at ha
    rw [Finset.mem_range]
    refine hrich.keys_range Kx ix hmx a ?_
    rw [show Kx = Kl from hex]
    exact ha
  have hle := Finset.card_le_card hsub
  rw [List.toFinset_card_of_nodup hfnd, Finset.card_powerset, Finset.card_range] at hle
  simpa using hle

/-- The alphabet fold of one worklist iteration preserves the rich
invariant, keeps table growth equal to worklist growth, and keeps all old
entries. -/
theorem dfaFold_rich (g : NfaGraph) (accept : Nat) (A : List Char) (hWF : g.WF)
    (d : DfaGraph) (e : List (Nat × Nat × Char)) (m : List (List Nat × Nat))
    (K : List Nat) (i : Nat) (rest : List (List Nat × Nat))
    (hrich : DfaInvRich g accept A ⟨d, e, m, (K, i) :: rest⟩) :
    DfaInvRich g accept A (A.foldl (dfaStep g accept K i) ⟨d, e, m, rest⟩) ∧
    (A.foldl (dfaStep g accept K i) ⟨d, e, m, rest⟩).worklist.length + m.length =
      rest.length + (A.foldl (dfaStep g accept K i) ⟨d, e, m, rest⟩).final_dfa_states.length ∧
    (∀ p ∈ m, p ∈ (A.foldl (dfaStep g accept K i) ⟨d, e, m, rest⟩).final_dfa_states) := by
  have hcore := hrich.core
  have hinvb : DfaInvCore g accept ⟨d, e, m, rest⟩ :=
    ⟨hcore.idx_lt, hcore.keys_nodup, hcore.idx_nodup, hcore.acc_flag, hcore.edges_sound,
      hcore.out_pairs_nodup, hcore.out_pairs_iff, hcore.dfa_wf,
      fun p hp => hcore.wl_mem p (List.mem_cons_of_mem _ hp),
      (List.nodup_cons.mp hcore.wl_idx_nodup).2,
      hcore.keys_ne⟩
  have hK : (K, i) ∈ m := hcore.wl_mem _ (List.mem_cons_self _ _)
  obtain ⟨f1, f2, f3, f4, f5, f6, f7⟩ := dfaFold_core g accept K i A ⟨d, e, m, rest⟩ hinvb hK
  obtain ⟨r1, r2, r3, r4⟩ := dfaFold_raw g accept K i A ⟨d, e, m, rest⟩
  refine ⟨⟨f1, ?_, ?_, ?_⟩, r4, f2⟩
  · intro K' i' h x hx
    rcases r3 (K', i') h with hold | ⟨_, S, c0, hkey⟩
    · exact hrich.keys_range K' i' hold x hx
    · have hkey' : K' = empty_closure g (delta g S c0) := hkey
      rw [hkey'] at hx
      exact (empty_closure_spec g hWF (delta g S c0)
        (sorted_nodup (delta_sorted g S c0)) (delta_range g hWF S c0)).2.2.1 x hx
  · intro K' i' h
    rcases r3 (K', i') h with hold | ⟨_, S, c0, hkey⟩
    · exact hrich.keys_sorted K' i' hold
    · have hkey' : K' = empty_closure g (delta g S c0) := hkey
      rw [hkey']
      exact empty_closure_sorted g (delta g S c0)
  · intro K' i' h
    rcases r3 (K', i') h with hold | ⟨hw, _⟩
    · by_cases hii : i' = i
      · subst hii
        have hKK : K' = K := entry_eq_of_idx hinvb.idx_nodup hold hK
        subst hKK
        exact Or.inr (fun c0 hc0 => f7 c0 hc0)
      · rcases hrich.expanded K' i' hold with ⟨K'', hw'⟩ | hcomp
        · rcases List.mem_cons.mp hw' with heq | hw''
          · injection heq with _ h2
            exact absurd h2 hii
          · exact Or.inl ⟨K'', f5 (K'', i') hw''⟩
        · exact Or.inr (fun c0 hc0 =>
            Complete_mono g ⟨d, e, m, (K, i) :: rest⟩ _ K' i' c0 f2 f3 (hcomp c0 hc0))
    · exact Or.inl ⟨K', hw⟩

/-- With fuel at least `worklist + (2 ^ n - table)`, the worklist loop
drains completely while preserving the rich invariant and keeping every
table entry. -/
theorem dfaLoop_rich (g : NfaGraph) (accept : Nat) (A : List Char) (hWF : g.WF) :
    ∀ fuel st, DfaInvRich g accept A st →
      st.worklist.length + 2 ^ g.nodes.length ≤ fuel + st.final_dfa_states.length →
      DfaInvRich g accept A (dfaLoop g accept A fuel st) ∧
      (dfaLoop g accept A fuel st).worklist = [] ∧
      (∀ p ∈ st.final_dfa_states, p ∈ (dfaLoop g accept A fuel st).final_dfa_states) := by
  intro fuel
  induction fuel with
  | zero =>
    intro st hrich hfuel
    rw [dfaLoop_zero]
    have hcard := card_states_le g accept A st hrich
    have hwl : st.worklist.length = 0 := by omega
    exact ⟨hrich, List.length_eq_zero.mp hwl, fun p hp => hp⟩
  | succ fuel ih =>
    intro st hrich hfuel
    obtain ⟨d, e, m, w⟩ := st
    cases w with
    | nil =>
      rw [dfaLoop_nil_wl g accept A _ _ rfl]
      exact ⟨hrich, rfl, fun p hp => hp⟩
    | cons p rest =>
      obtain ⟨K, i⟩ := p
      rw [dfaLoop_cons]
      obtain ⟨hrich', hgrow, hmono⟩ := dfaFold_rich g accept A hWF d e m K i rest hrich
      have hf : ((K, i) :: rest).length + 2 ^ g.nodes.length ≤ (fuel + 1) + m.length := hfuel
      simp only [List.length_cons] at hf
      have hfuel' : (A.foldl (dfaStep g accept K i) ⟨d, e, m, rest⟩).worklist.length +
          2 ^ g.nodes.length ≤ fuel +
          (A.foldl (dfaStep g accept K i) ⟨d, e, m, rest⟩).final_dfa_states.length := by
        omega
      obtain ⟨j1, j2, j3⟩ := ih _ hrich' hfuel'
      exact ⟨j1, j2, fun p hp => j3 _ (hmono p hp)⟩

/-- The final worklist state of `build_dfa` satisfies the rich invariant,
has an empty worklist, and still records the start closure at index `0`. -/
theorem build_dfa_final (nfa : NfaGraph) (handle : AutomataComponent) (A : List Char)
    (hWF : nfa.WF) (hstart : handle.start_state < nfa.nodes.length) :
    DfaInvRich nfa handle.accept_state A
      (dfaLoop nfa handle.accept_state A (2 ^ nfa.nodes.length + 1)
        ⟨((Graph.new AutomataState Char).add_node
            ⟨decide (handle.accept_state ∈ empty_closure nfa [handle.start_state])⟩).2, [],
          [(empty_closure nfa [handle.start_state], 0)],
          [(empty_closure nfa [handle.start_state], 0)]⟩) ∧
    (dfaLoop nfa handle.accept_state A (2 ^ nfa.nodes.length + 1)
        ⟨((Graph.new AutomataState Char).add_node
            ⟨decide (handle.accept_state ∈ empty_closure nfa [handle.start_state])⟩).2, [],
          [(empty_closure nfa [handle.start_state], 0)],
          [(empty_closure nfa [handle.start_state], 0)]⟩).worklist = [] ∧
    (empty_closure nfa [handle.start_state], 0) ∈
      (dfaLoop nfa handle.accept_state A (2 ^ nfa.nodes.length + 1)
        ⟨((Graph.new AutomataState Char).add_node
            ⟨decide (handle.accept_state ∈ empty_closure nfa [handle.start_state])⟩).2, [],
          [(empty_closure nfa [handle.start_state], 0)],
          [(empty_closure nfa [handle.start_state], 0)]⟩).final_dfa_states := by
  have hK0ne := empty_closure_ne_nil nfa [handle.start_state] (by simp)
  have hinit := build_dfa_init nfa handle.accept_state
    (empty_closure nfa [handle.start_state]) hK0ne
  have hrich0 : DfaInvRich nfa handle.accept_state A
      ⟨((Graph.new AutomataState Char).add_node
          ⟨decide (handle.accept_state ∈ empty_closure nfa [handle.start_state])⟩).2, [],
        [(empty_closure nfa [handle.start_state], 0)],
        [(empty_closure nfa [handle.start_state], 0)]⟩ := by
    refine ⟨hinit, ?_, ?_, ?_⟩
    · intro K i h x hx
      rcases List.mem_singleton.mp h with heq
      injection heq with h1 _
      rw [h1] at hx
      exact (empty_closure_spec nfa hWF [handle.start_state] (List.nodup_singleton _)
        (by
          intro y hy
          rcases List.mem_singleton.mp hy with rfl
          exact hstart)).2.2.1 x hx
    · intro K i h
      rcases List.mem_singleton.mp h with heq
      injection heq with h1 _
      rw [h1]
      exact empty_closure_sorted nfa [handle.start_state]
    · intro K i h
      exact Or.inl ⟨K, h⟩
  have hfuel : (⟨((Graph.new AutomataState Char).add_node
        ⟨decide (handle.accept_state ∈ empty_closure nfa [handle.start_state])⟩).2, [],
        [(empty_closure nfa [handle.start_state], 0)],
        [(empty_closure nfa [handle.start_state], 0)]⟩ : DfaBuild).worklist.length +
      2 ^ nfa.nodes.length ≤ (2 ^ nfa.nodes.length + 1) +
      (⟨((Graph.new AutomataState Char).add_node
        ⟨decide (handle.accept_state ∈ empty_closure nfa [handle.start_state])⟩).2, [],
        [(empty_closure nfa [handle.start_state], 0)],
        [(empty_closure nfa [handle.start_state], 0)]⟩ : DfaBuild).final_dfa_states.length := by
    simp only [List.length_singleton]
    omega
  obtain ⟨j1, j2, j3⟩ := dfaLoop_rich nfa handle.accept_state A hWF
    (2 ^ nfa.nodes.length + 1) _ hrich0 hfuel
  exact ⟨j1, j2, j3 _ (List.mem_singleton.mpr rfl)⟩

/-! ### Paths in the built DFA versus the subset simulation -/

/-- In the fully-expanded table, from any node recording the start closure
there is a DFA path to a node recording the subset iterate, for every input
over the alphabet whose iterate is nonempty. -/
theorem subset_path_fwd (g : NfaGraph) (accept : Nat) (A : List Char) (st : DfaBuild)
    (hrich : DfaInvRich g accept A st) (hwl : st.worklist = [])
    (start q0 : Nat) (h0 : (empty_closure g [start], q0) ∈ st.final_dfa_states) :
    ∀ s : List Char, (∀ c ∈ s, c ∈ A) → subsetIter g start s ≠ [] →
      ∃ q, DfaPath st.dfa q0 s q ∧ (subsetIter g start s, q) ∈ st.final_dfa_states := by
  intro s
  induction s using List.reverseRecOn with
  | nil =>
    intro _ _
    exact ⟨q0, DfaPath.refl, h0⟩
  | append_singleton s c ih =>
    intro hsA hne
    have hiter : subsetIter g start (s ++ [c]) =
        empty_closure g (delta g (subsetIter g start s) c) := by
      unfold subsetIter
      rw [List.foldl_append]
      rfl
    have hprev : subsetIter g start s ≠ [] := by
      intro h0'
      apply hne
      rw [hiter, h0']
      rw [show delta g [] c = [] from rfl]
      exact empty_closure_of_empty g
    obtain ⟨q, hpath, hq⟩ := ih (fun c' hc' => hsA c' (List.mem_append_left _ hc')) hprev
    have hcomp : ∀ c' ∈ A, Complete g st (subsetIter g start s) q c' := by
      rcases hrich.expanded _ q hq with ⟨K', hK'⟩ | hcomp
      · rw [hwl] at hK'
        cases hK'
      · exact hcomp
    have hcA : c ∈ A := hsA c (List.mem_append_right _ (List.mem_singleton.mpr rfl))
    have hne' : empty_closure g (delta g (subsetIter g start s) c) ≠ [] := by
      rw [← hiter]
      exact hne
    obtain ⟨j, hjmem, hjedge⟩ := hcomp c hcA hne'
    have hstep : DfaStep st.dfa c q j := by
      have hp : (c, j) ∈ outPairs st.dfa q := (hrich.core.out_pairs_iff q c j).mpr hjedge
      obtain ⟨e', he', heq⟩ := List.mem_map.mp hp
      injection heq with h1 h2
      exact ⟨e', he', h1, h2⟩
    refine ⟨j, DfaPath.char hpath hstep, ?_⟩
    rw [hiter]
    exact hjmem

/-- Conversely, every DFA path from a node recording the start closure ends
at the node recording the (necessarily nonempty) subset iterate. -/
theorem subset_path_bwd (g : NfaGraph) (accept : Nat) (st : DfaBuild)
    (hcore : DfaInvCore g accept st)
    (start q0 : Nat) (h0 : (empty_closure g [start], q0) ∈ st.final_dfa_states)
    (s : List Char) (q : Nat) (hpath : DfaPath st.dfa q0 s q) :
    subsetIter g start s ≠ [] ∧ (subsetIter g start s, q) ∈ st.final_dfa_states := by
  induction hpath with
  | refl =>
    exact ⟨empty_closure_ne_nil g [start] (by simp), h0⟩
  | char hp hstep ih =>
    rename_i s' y c z
    obtain ⟨hne, hmem⟩ := ih
    obtain ⟨e', he', hlab, htgt⟩ := hstep
    have hpair : (c, z) ∈ outPairs st.dfa y := by
      refine List.mem_map.mpr ⟨e', he', ?_⟩
      rw [hlab, htgt]
    have hedge : (y, z, c) ∈ st.final_dfa_edges := (hcore.out_pairs_iff y c z).mp hpair
    obtain ⟨Ky, hKy, hne2, hT⟩ := hcore.edges_sound y z c hedge
    have hKeq : Ky = subsetIter g start s' := entry_eq_of_idx hcore.idx_nodup hKy hmem
    rw [hKeq] at hne2 hT
    have hiter : subsetIter g start (s' ++ [c]) =
        empty_closure g (delta g (subsetIter g start s') c) := by
      unfold subsetIter
      rw [List.foldl_append]
      rfl
    rw [hiter]
    exact ⟨hne2, hT⟩

/-- Acceptance correspondence at the final table state: a DFA path to an
accepting-flagged node exists iff the NFA has an ε-interleaved path to the
accept state spelling the same string. -/
theorem dfa_accepts_iff_core (g : NfaGraph) (accept : Nat) (A : List Char) (st : DfaBuild)
    (hWF : g.WF) (hrich : DfaInvRich g accept A st) (hwl : st.worklist = [])
    (start q0 : Nat) (hstart : start < g.nodes.length)
    (h0 : (empty_closure g [start], q0) ∈ st.final_dfa_states)
    (s : List Char) (hsA : ∀ c ∈ s, c ∈ A) :
    (∃ q, DfaPath st.dfa q0 s q ∧ isAcceptingD st.dfa q = true) ↔
      NfaPath g start s accept := by
  constructor
  · rintro ⟨q, hpath, hacc⟩
    obtain ⟨hne, hmem⟩ := subset_path_bwd g accept st hrich.core start q0 h0 s q hpath
    have hflag := hrich.core.acc_flag _ q hmem
    rw [hacc] at hflag
    have haccmem : accept ∈ subsetIter g start s := of_decide_eq_true hflag.symm
    exact (mem_subsetIter_iff g hWF start hstart s accept).mp haccmem
  · intro hnfa
    have haccmem : accept ∈ subsetIter g start s :=
      (mem_subsetIter_iff g hWF start hstart s accept).mpr hnfa
    have hne : subsetIter g start s ≠ [] := by
      intro h
      rw [h] at haccmem
      cases haccmem
    obtain ⟨q, hpath, hmem⟩ := subset_path_fwd g accept A st hrich hwl start q0 h0 s hsA hne
    refine ⟨q, hpath, ?_⟩
    rw [hrich.core.acc_flag _ q hmem]
    exact decide_eq_true haccmem

/-- C1: for every pattern the postfixer accepts and every input string over
the pattern's alphabet, the DFA produced by `build_dfa` accepts the string
iff the Thompson NFA produced by `build_nfa` accepts it (acceptance by some
path of character edges interleaved with ε-edges from the start state to the
accepting state consuming exactly the string). -/
theorem dfa_equiv_nfa (pattern : String) (px : List RegexSymbol)
    (hpx : transform pattern = Except.ok px)
    (handle : AutomataComponent) (nfa : NfaGraph)
    (hnfa : build_nfa px = some (handle, nfa))
    (s : List Char) (hsA : ∀ c ∈ s, c ∈ get_alphabet px) :
    dfaAccepts (build_dfa handle nfa (get_alphabet px)).2
        (build_dfa handle nfa (get_alphabet px)).1 s ↔
      nfaAccepts nfa handle.start_state handle.accept_state s := by
  obtain ⟨hWF, hstart, _⟩ := build_nfa_wf px handle nfa hnfa
  obtain ⟨hrich, hwl, h0⟩ := build_dfa_final nfa handle (get_alphabet px) hWF hstart
  have heq2 : (build_dfa handle nfa (get_alphabet px)).2 =
      (dfaLoop nfa handle.accept_state (get_alphabet px) (2 ^ nfa.nodes.length + 1)
        ⟨((Graph.new AutomataState Char).add_node
            ⟨decide (handle.accept_state ∈ empty_closure nfa [handle.start_state])⟩).2, [],
          [(empty_closure nfa [handle.start_state], 0)],
          [(empty_closure nfa [handle.start_state], 0)]⟩).dfa := rfl
  have heq1 : (build_dfa handle nfa (get_alphabet px)).1 = 0 := rfl
  rw [heq1, heq2]
  exact dfa_accepts_iff_core nfa handle.accept_state (get_alphabet px) _ hWF hrich hwl
    handle.start_state 0 hstart h0 s hsA

/-- Witness for `dfa_equiv_nfa` on the pattern `"a"` and the string `"a"`. -/
theorem dfa_equiv_nfa_witness :
    ∃ handle nfa, build_nfa [RegexSymbol.Char 'a'] = some (handle, nfa) ∧
      (dfaAccepts (build_dfa handle nfa (get_alphabet [RegexSymbol.Char 'a'])).2
          (build_dfa handle nfa (get_alphabet [RegexSymbol.Char 'a'])).1 ['a'] ↔
        nfaAccepts nfa handle.start_state handle.accept_state ['a']) := by
  obtain ⟨handle, nfa, hn⟩ : ∃ h n, build_nfa [RegexSymbol.Char 'a'] = some (h, n) :=
    ⟨_, _, rfl⟩
  exact ⟨handle, nfa, hn,
    dfa_equiv_nfa "a" [RegexSymbol.Char 'a'] rfl handle nfa hn ['a'] (by decide)⟩

end MyGrep
